import Mathlib

/-!
# BroSplit AI — verification of the nutrition/workout pipeline

Shallow embedding of the core pure logic of `server.js` (BroSplit AI):
the nutrition target calculator, the plan validator/repair engine, the
batch-prep synthesizer, the workout-plan text parser and the JSON rescue
path, together with theorems settling the specification claims.

Numbers that JavaScript stores as IEEE doubles are modelled as exact
rationals (`ℚ`); `Math.round` is `⌊x + 1/2⌋` (round half toward +∞),
which matches JavaScript's `Math.round` semantics.  Strings are modelled
as Lean `String`/`List Char`; the case folding and whitespace classes of
the JavaScript regexes are modelled on the ASCII fragment actually used
by the program.
-/

namespace BroSplit

/-! ## §1 Nutrition target calculator (server.js lines 296–309) -/

/-- `Math.round` in JavaScript: round half toward positive infinity. -/
def jround (x : ℚ) : ℤ := ⌊x + 1/2⌋

inductive Sex | male | female
deriving DecidableEq

inductive Activity | sedentary | light | moderate | very_active
deriving DecidableEq

inductive Goal | cut | recomp | gain
deriving DecidableEq

inductive TrainingLoad | light | moderate | high
deriving DecidableEq

/-- Activity factors: `const AF = { sedentary:1.2, light:1.375, moderate:1.55, very_active:1.725 }`. -/
def AF : Activity → ℚ
  | .sedentary => 1.2
  | .light => 1.375
  | .moderate => 1.55
  | .very_active => 1.725

/-- `function mifflin({ sex, age, height_cm, weight_kg })`. -/
def mifflin (sex : Sex) (age : ℤ) (height_cm weight_kg : ℚ) : ℚ :=
  10 * weight_kg + 6.25 * height_cm - 5 * age + (match sex with | .male => 5 | .female => -161)

/-- Goal adjustment inside `calorieGoal`: cut 0.80, gain 1.12, otherwise 0.95. -/
def goalAdj : Goal → ℚ
  | .cut => 0.80
  | .gain => 1.12
  | .recomp => 0.95

/-- `function calorieGoal(rmr, activity, goal)`. -/
def calorieGoal (rmr : ℚ) (activity : Activity) (goal : Goal) : ℤ :=
  jround (rmr * AF activity * goalAdj goal)

/-- The load-specific carb band `[8,10] / [5,7] / [3,5]` (g per kg). -/
def band : TrainingLoad → ℚ × ℚ
  | .high => (8, 10)
  | .moderate => (5, 7)
  | .light => (3, 5)

structure MacroOut where
  kcal : ℤ
  protein_g : ℤ
  carbs_g : ℤ
  fat_g : ℤ
  fiber_g : ℤ
  sodium_mg_cap : ℤ
deriving DecidableEq

/-- `Math.round((goal === 'cut' ? 2.2 : 1.8) * weight_kg)`. -/
def proteinTarget (goal : Goal) (weight_kg : ℚ) : ℤ :=
  jround ((match goal with | Goal.cut => 2.2 | _ => 1.8) * weight_kg)

/-- Initial fat target: `Math.round((kcal * 0.30) / 9)`. -/
def preFat (kcal : ℤ) : ℤ := jround ((kcal * 0.30) / 9)

/-- Corrected fat target: `Math.round((kcal * 0.22) / 9)`. -/
def corrFat (kcal : ℤ) : ℤ := jround ((kcal * 0.22) / 9)

/-- `Math.round(band[0] * weight_kg)`. -/
def minCarb (training_load : TrainingLoad) (weight_kg : ℚ) : ℤ :=
  jround ((band training_load).1 * weight_kg)

/-- `Math.round((kcal - (protein_g*4 + fat_g*9)) / 4)`. -/
def carbsFrom (kcal protein_g fat_g : ℤ) : ℤ :=
  jround (((kcal : ℚ) - ((protein_g : ℚ) * 4 + (fat_g : ℚ) * 9)) / 4)

/-- `Math.round((kcal / 1000) * 14)`. -/
def fiberTarget (kcal : ℤ) : ℤ := jround (((kcal : ℚ) / 1000) * 14)

/-- `function macroTargets({ weight_kg, kcal, goal, training_load })`, including the
single-pass carb-floor correction that re-derives fat at 22% of calories.  The
in-place reassignment `if (carbs_g < minCarb_g) { fat_g = ...; carbs_g = ...; }`
of the source is rendered as the two branches of the `if`. -/
def macroTargets (weight_kg : ℚ) (kcal : ℤ) (goal : Goal) (training_load : TrainingLoad) :
    MacroOut :=
  let protein_g : ℤ := proteinTarget goal weight_kg
  let fat0 : ℤ := preFat kcal
  let carbs0 : ℤ := carbsFrom kcal protein_g fat0
  if carbs0 < minCarb training_load weight_kg then
    ⟨kcal, protein_g, carbsFrom kcal protein_g (corrFat kcal), corrFat kcal,
      fiberTarget kcal, 2300⟩
  else
    ⟨kcal, protein_g, carbs0, fat0, fiberTarget kcal, 2300⟩

/-- The validated input ranges of the `NutritionInput` zod schema that feed the
calculator (age 13–90 integral, height 120–230 cm, weight 35–250 kg). -/
structure Profile where
  sex : Sex
  age : ℤ
  height_cm : ℚ
  weight_kg : ℚ
  activity : Activity
  goal : Goal
  training_load : TrainingLoad

def Profile.valid (p : Profile) : Prop :=
  13 ≤ p.age ∧ p.age ≤ 90 ∧ 120 ≤ p.height_cm ∧ p.height_cm ≤ 230 ∧
    35 ≤ p.weight_kg ∧ p.weight_kg ≤ 250

instance (p : Profile) : Decidable p.valid := by
  unfold Profile.valid; infer_instance

/-- The calorie goal computed by the `/api/nutrition` route:
`calorieGoal(mifflin(input), input.activity, input.goal)`. -/
def profileKcal (p : Profile) : ℤ :=
  calorieGoal (mifflin p.sex p.age p.height_cm p.weight_kg) p.activity p.goal

/-- The calculator chain as run by the `/api/nutrition` route. -/
def profileTargets (p : Profile) : MacroOut :=
  macroTargets p.weight_kg (profileKcal p) p.goal p.training_load

/-! Basic facts about `jround`. -/

theorem jround_mono {x y : ℚ} (h : x ≤ y) : jround x ≤ jround y :=
  Int.floor_mono (by linarith)

theorem floor_le_jround (x : ℚ) : ⌊x⌋ ≤ jround x :=
  Int.floor_mono (by linarith)

theorem jround_nonneg {x : ℚ} (h : 0 ≤ x) : 0 ≤ jround x := by
  have : (0 : ℤ) = ⌊(0 : ℚ)⌋ := by simp
  rw [this]
  exact Int.floor_mono (by linarith)

theorem mifflin_pos {p : Profile} (hv : p.valid) :
    0 < mifflin p.sex p.age p.height_cm p.weight_kg := by
  obtain ⟨h1, h2, h3, h4, h5, h6⟩ := hv
  unfold mifflin
  have hage : (p.age : ℚ) ≤ 90 := by exact_mod_cast h2
  cases p.sex <;> simp only <;> nlinarith

theorem kcal_nonneg {p : Profile} (hv : p.valid) : 0 ≤ profileKcal p := by
  apply jround_nonneg
  have h := (mifflin_pos hv).le
  have hAF : 0 ≤ AF p.activity := by cases p.activity <;> norm_num [AF]
  have hadj : 0 ≤ goalAdj p.goal := by cases p.goal <;> norm_num [goalAdj]
  positivity

theorem corrFat_le_preFat {kcal : ℤ} (h : 0 ≤ kcal) : corrFat kcal ≤ preFat kcal := by
  apply jround_mono
  have : (0 : ℚ) ≤ (kcal : ℚ) := by exact_mod_cast h
  nlinarith

theorem carbsFrom_anti {kcal p f f' : ℤ} (h : f' ≤ f) :
    carbsFrom kcal p f ≤ carbsFrom kcal p f' := by
  apply jround_mono
  have : (f' : ℚ) ≤ (f : ℚ) := by exact_mod_cast h
  linarith

/-- `macroTargets` written out by cases (zeta-reduced form of the definition). -/
theorem macroTargets_eq (w : ℚ) (kcal : ℤ) (goal : Goal) (tl : TrainingLoad) :
    macroTargets w kcal goal tl =
      if carbsFrom kcal (proteinTarget goal w) (preFat kcal) < minCarb tl w then
        ⟨kcal, proteinTarget goal w, carbsFrom kcal (proteinTarget goal w) (corrFat kcal),
          corrFat kcal, fiberTarget kcal, 2300⟩
      else
        ⟨kcal, proteinTarget goal w, carbsFrom kcal (proteinTarget goal w) (preFat kcal),
          preFat kcal, fiberTarget kcal, 2300⟩ := rfl

/-- **C2 (counterexample).**  The claim asserts that for every profile within the
validated ranges, `carbs_g ≥ ⌊band_low * weight_kg⌋` after the single-pass fat
correction.  The profile female / age 90 / 120 cm / 250 kg / sedentary / cut /
high-load is within every range, yet the calculator produces `carbs_g = -56`,
far below the floor `⌊8 * 250⌋ = 2000`: the single-pass correction does not
clamp carbs to the floor. -/
theorem carb_floor_counterexample :
    (Profile.valid ⟨Sex.female, 90, 120, 250, Activity.sedentary, Goal.cut,
        TrainingLoad.high⟩) ∧
      (profileTargets ⟨Sex.female, 90, 120, 250, Activity.sedentary, Goal.cut,
          TrainingLoad.high⟩).carbs_g = -56 ∧
      ¬ (⌊(band TrainingLoad.high).1 * (250 : ℚ)⌋ ≤
          (profileTargets ⟨Sex.female, 90, 120, 250, Activity.sedentary, Goal.cut,
            TrainingLoad.high⟩).carbs_g) := by
  refine ⟨by norm_num [Profile.valid], ?_, ?_⟩ <;>
    norm_num [profileTargets, profileKcal, macroTargets_eq, calorieGoal, mifflin, AF, goalAdj,
      proteinTarget, preFat, corrFat, minCarb, carbsFrom, band, jround]

/-- **C2 (amended).**  For every profile within the validated input ranges, the
macro-target computation either meets the carb floor `⌊band_low * weight_kg⌋`,
or else the single-pass correction has fired: fat has been re-derived at 22% of
calories and the final carbs are at least the pre-correction carbs (the
correction only ever raises carbs, but need not reach the floor). -/
theorem carb_floor_or_corrected (p : Profile) (hv : p.valid) :
    ⌊(band p.training_load).1 * p.weight_kg⌋ ≤ (profileTargets p).carbs_g ∨
      ((profileTargets p).fat_g = corrFat (profileKcal p) ∧
        carbsFrom (profileKcal p) (proteinTarget p.goal p.weight_kg)
            (preFat (profileKcal p)) ≤ (profileTargets p).carbs_g) := by
  by_cases h : carbsFrom (profileKcal p) (proteinTarget p.goal p.weight_kg)
      (preFat (profileKcal p)) < minCarb p.training_load p.weight_kg
  · right
    have ht : profileTargets p =
        ⟨profileKcal p, proteinTarget p.goal p.weight_kg,
          carbsFrom (profileKcal p) (proteinTarget p.goal p.weight_kg)
            (corrFat (profileKcal p)),
          corrFat (profileKcal p), fiberTarget (profileKcal p), 2300⟩ := by
      unfold profileTargets
      rw [macroTargets_eq, if_pos h]
    rw [ht]
    exact ⟨rfl, carbsFrom_anti (corrFat_le_preFat (kcal_nonneg hv))⟩
  · left
    have ht : profileTargets p =
        ⟨profileKcal p, proteinTarget p.goal p.weight_kg,
          carbsFrom (profileKcal p) (proteinTarget p.goal p.weight_kg)
            (preFat (profileKcal p)),
          preFat (profileKcal p), fiberTarget (profileKcal p), 2300⟩ := by
      unfold profileTargets
      rw [macroTargets_eq, if_neg h]
    rw [ht]
    calc ⌊(band p.training_load).1 * p.weight_kg⌋
        ≤ minCarb p.training_load p.weight_kg := floor_le_jround _
      _ ≤ _ := not_lt.mp h

/-- Witness for `carb_floor_or_corrected` at a concrete in-range profile. -/
theorem carb_floor_or_corrected_witness :
    ⌊(band TrainingLoad.high).1 * (80 : ℚ)⌋ ≤
        (profileTargets ⟨Sex.male, 30, 180, 80, Activity.moderate, Goal.gain,
          TrainingLoad.high⟩).carbs_g ∨
      ((profileTargets ⟨Sex.male, 30, 180, 80, Activity.moderate, Goal.gain,
            TrainingLoad.high⟩).fat_g =
          corrFat (profileKcal ⟨Sex.male, 30, 180, 80, Activity.moderate, Goal.gain,
            TrainingLoad.high⟩) ∧
        carbsFrom (profileKcal ⟨Sex.male, 30, 180, 80, Activity.moderate, Goal.gain,
              TrainingLoad.high⟩)
            (proteinTarget Goal.gain 80)
            (preFat (profileKcal ⟨Sex.male, 30, 180, 80, Activity.moderate, Goal.gain,
              TrainingLoad.high⟩)) ≤
          (profileTargets ⟨Sex.male, 30, 180, 80, Activity.moderate, Goal.gain,
            TrainingLoad.high⟩).carbs_g) :=
  carb_floor_or_corrected _ (by norm_num [Profile.valid])

/-- **C3 (counterexample).**  For the fixed profile male / 30 y / 180 cm / 80 kg /
moderate activity / goal gain / high training load, the claim's asserted values
do not match the code: Mifflin–St Jeor gives `10*80 + 6.25*180 - 5*30 + 5 = 1780`,
not 1740, and the final carbs are 458, not ≥ 640. -/
theorem scenario_calculator_counterexample :
    ¬ (mifflin Sex.male 30 180 80 = 1740 ∧
        mifflin Sex.male 30 180 80 * AF Activity.moderate = 2697 ∧
        profileKcal ⟨Sex.male, 30, 180, 80, Activity.moderate, Goal.gain,
          TrainingLoad.high⟩ = 3021 ∧
        (profileTargets ⟨Sex.male, 30, 180, 80, Activity.moderate, Goal.gain,
          TrainingLoad.high⟩).protein_g = 144 ∧
        minCarb TrainingLoad.high 80 = 640 ∧
        640 ≤ (profileTargets ⟨Sex.male, 30, 180, 80, Activity.moderate, Goal.gain,
          TrainingLoad.high⟩).carbs_g) := by
  intro hc
  have h1 := hc.1
  norm_num [mifflin] at h1

/-- **C3 (amended).**  For that same fixed profile the calculator chain yields
RMR = 1780, TEE = 2759, calorie goal 3090 = round(2759*1.12), protein 144 g, a
pre-correction carb floor of round(8*80) = 640 g; the floor correction fires
(fat re-derived at 22%: 76 g) and the final carbs are 458 g, which stays below
the 640 g floor. -/
theorem scenario_calculator_values :
    mifflin Sex.male 30 180 80 = 1780 ∧
      mifflin Sex.male 30 180 80 * AF Activity.moderate = 2759 ∧
      profileKcal ⟨Sex.male, 30, 180, 80, Activity.moderate, Goal.gain,
        TrainingLoad.high⟩ = 3090 ∧
      (profileTargets ⟨Sex.male, 30, 180, 80, Activity.moderate, Goal.gain,
        TrainingLoad.high⟩).protein_g = 144 ∧
      minCarb TrainingLoad.high 80 = 640 ∧
      (profileTargets ⟨Sex.male, 30, 180, 80, Activity.moderate, Goal.gain,
        TrainingLoad.high⟩).fat_g = 76 ∧
      (profileTargets ⟨Sex.male, 30, 180, 80, Activity.moderate, Goal.gain,
        TrainingLoad.high⟩).carbs_g = 458 ∧
      (profileTargets ⟨Sex.male, 30, 180, 80, Activity.moderate, Goal.gain,
        TrainingLoad.high⟩).carbs_g < 640 := by
  refine ⟨by norm_num [mifflin], by norm_num [mifflin, AF], ?_, ?_, ?_, ?_, ?_, ?_⟩ <;>
    norm_num [profileTargets, profileKcal, macroTargets_eq, calorieGoal, mifflin, AF, goalAdj,
      proteinTarget, preFat, corrFat, minCarb, carbsFrom, band, jround]

/-! ## §2 Nutrition plan data model

The JSON plans returned by the model are dynamically shaped; the fields the
repair/batch-prep code actually touches are modelled below.  An `Option` field
models presence/absence of the JSON key (with a non-array value treated as
absent, matching the `Array.isArray` guards of the source); JavaScript `||`
field aliasing is modelled by explicit helpers with JS truthiness (empty
strings and `0` are falsy, arrays — including empty ones — are truthy). -/

/-- A grocery-list entry or a meal ingredient: either a bare string or an
object with optional `item` / `name` fields (`i.item || i.name || i`). -/
inductive IEntry
  | str (s : String)
  | obj (item : Option String) (name : Option String)
deriving DecidableEq

/-- JavaScript `a || b` for an optional string `a` (empty string is falsy). -/
def jsOrStr : Option String → String → String
  | some s, b => if s = "" then b else s
  | none, b => b

/-- `it.item || it.name || it` as stringified by `String(...)`: a bare string
is itself; an object without a truthy `item`/`name` stringifies to
`"[object Object]"`. -/
def entryName : IEntry → String
  | .str s => s
  | .obj item name => jsOrStr item (jsOrStr name "[object Object]")

structure Macros where
  kcal : ℤ
  protein_g : ℤ
  carbs_g : ℤ
  fat_g : ℤ
deriving DecidableEq

structure Meal where
  name : String
  recipe : String
  macros : Macros
  ingredients : Option (List IEntry)
deriving DecidableEq

structure DayPlan where
  day : ℤ
  total_kcal : ℤ
  meals : Option (List Meal)
deriving DecidableEq

/-- One `batch_prep` entry `{day, steps}` (steps may be absent upstream). -/
structure BDay where
  day : String
  steps : Option (List String)
deriving DecidableEq

/-- The `grocery_list` field: either an array of entries or an object whose
`items` field may hold the array (`(plan?.grocery_list && plan.grocery_list.items)
|| plan?.grocery_list || []`). -/
inductive Grocery
  | arr (items : List IEntry)
  | obj (items : Option (List IEntry))
deriving DecidableEq

structure Summary where
  calories : Option ℤ
  kcal : Option ℤ
deriving DecidableEq

structure Plan where
  summary : Option Summary
  day_plans : Option (List DayPlan)
  days : Option (List DayPlan)
  grocery_list : Option Grocery
  batch_prep : Option (List BDay)
deriving DecidableEq

/-! ## §3 Validator & repair engine (server.js lines 320–324, 345–368) -/

/-- `const days = plan?.day_plans || plan?.days || []` — a present array
(empty included) is truthy, so `day_plans` wins whenever present. -/
def planDays (p : Plan) : List DayPlan :=
  match p.day_plans with
  | some l => l
  | none => p.days.getD []

/-- `function needsRepair(plan, mealsPerDay)`. -/
def needsRepair (p : Plan) (mealsPerDay : Nat) : Bool :=
  let days := planDays p
  days.length < 7 || days.any fun d =>
    match d.meals with
    | none => true
    | some ms => ms.length < mealsPerDay

/-- The generic placeholder meal of `expandProgrammatically`. -/
def placeholderMeal : Meal :=
  ⟨"Meal", "Protein + carb + veg", ⟨0, 0, 0, 0⟩, some []⟩

/-- JavaScript `a || b` for an optional integer `a` (`0` is falsy). -/
def jsOrInt : Option ℤ → ℤ → ℤ
  | some v, b => if v = 0 then b else v
  | none, b => b

/-- `out?.summary?.calories || out?.summary?.kcal || 0`. -/
def day1TotalKcal (p : Plan) : ℤ :=
  match p.summary with
  | none => 0
  | some s => jsOrInt s.calories (jsOrInt s.kcal 0)

/-- The meal-padding loop: `while (d.meals.length < mealsPerDay) d.meals.push(clone
of last meal or placeholder)`; pushing a deep copy of a value is just the value. -/
def padMeals (ms : List Meal) (m : Nat) : List Meal :=
  if ms.length < m then padMeals (ms ++ [ms.getLast?.getD placeholderMeal]) m else ms
termination_by m - ms.length
decreasing_by simp [List.length_append]; omega

/-- `d.meals = Array.isArray(d.meals) ? d.meals : []` followed by the padding loop. -/
def padDayMeals (m : Nat) (d : DayPlan) : DayPlan :=
  { d with meals := some (padMeals (d.meals.getD []) m) }

/-- The clone made inside the day-padding loop: a deep copy of the last day,
renumbered to `days.length + 1`, with its meal list rotated by one when it has
more than one meal (`clone.meals.push(clone.meals.shift())`). -/
def rotateClone (base : DayPlan) (len : Nat) : DayPlan :=
  { base with
    day := (len : ℤ) + 1,
    meals := match base.meals with
      | some (a :: b :: rest) => some (b :: rest ++ [a])
      | ms => ms }

/-- The day-padding loop `while (days.length < 7) { ... days.push(clone) }`.
`days` is never empty when this loop runs (a day was pushed beforehand); on an
empty list the JavaScript would fault cloning `undefined`, and the equation
returns the list unchanged. -/
def padDays (days : List DayPlan) : List DayPlan :=
  if days.length < 7 then
    match days.getLast? with
    | none => days
    | some base => padDays (days ++ [rotateClone base days.length])
  else days
termination_by 7 - days.length
decreasing_by simp [List.length_append]; omega

/-- `function expandProgrammatically(plan, mealsPerDay)`.  The source first
takes a deep copy (`JSON.parse(JSON.stringify(plan || {}))`) and mutates only
the copy; over pure values the copy is the value itself. -/
def expandProgrammatically (p : Plan) (m : Nat) : Plan :=
  -- `Array.isArray(out.day_plans) ? out.day_plans : (Array.isArray(out.days) ?
  -- out.days : [])` resolves to the same list as `planDays` in this model.
  let days0 := planDays p
  let days1 := if days0.isEmpty then [⟨1, day1TotalKcal p, some []⟩] else days0
  let days2 := days1.map (padDayMeals m)
  let days3 := padDays days2
  { p with day_plans := some days3, days := none }

/-- The deterministic fallback path of the `/api/nutrition` route: repair runs
exactly when `needsRepair` reports an incomplete plan (model-assisted repair
having failed, `expandProgrammatically` is the repair). -/
def repairPipeline (p : Plan) (m : Nat) : Plan :=
  if needsRepair p m then expandProgrammatically p m else p

/-- Number of meals of a day (an absent `meals` array reads as empty). -/
def mealsLen (d : DayPlan) : Nat := (d.meals.getD []).length

theorem padMeals_length (ms : List Meal) (m : Nat) :
    (padMeals ms m).length = max m ms.length := by
  induction ms, m using padMeals.induct with
  | case1 ms m h ih => rw [padMeals, if_pos h, ih]; simp [List.length_append]; omega
  | case2 ms m h => rw [padMeals, if_neg h]; omega

theorem rotateClone_mealsLen (base : DayPlan) (len : Nat) :
    mealsLen (rotateClone base len) = mealsLen base := by
  unfold rotateClone mealsLen
  rcases base with ⟨d, k, ms⟩
  match ms with
  | none => rfl
  | some [] => rfl
  | some [a] => rfl
  | some (a :: b :: rest) => simp

theorem padDays_length {days : List DayPlan} (h : days ≠ []) :
    (padDays days).length = max 7 days.length := by
  induction days using padDays.induct with
  | case1 days h7 hlast =>
    exact absurd (List.getLast?_eq_none_iff.mp hlast) h
  | case2 days h7 base hlast ih =>
    rw [padDays, if_pos h7, hlast]
    rw [ih (by simp)]
    simp [List.length_append]; omega
  | case3 days h7 =>
    rw [padDays, if_neg h7]; omega

theorem padDays_meals {P : Nat → Prop} {days : List DayPlan}
    (hall : ∀ d ∈ days, P (mealsLen d)) :
    ∀ d ∈ padDays days, P (mealsLen d) := by
  induction days using padDays.induct with
  | case1 days h7 hlast =>
    rw [padDays, if_pos h7, hlast]; exact hall
  | case2 days h7 base hlast ih =>
    rw [padDays, if_pos h7, hlast]
    refine ih fun d hd => ?_
    rcases List.mem_append.mp hd with hd | hd
    · exact hall d hd
    · have hb : base ∈ days := List.mem_of_mem_getLast? hlast
      simp only [List.mem_singleton] at hd
      subst hd
      rw [rotateClone_mealsLen]
      exact hall base hb
  | case3 days h7 =>
    rw [padDays, if_neg h7]; exact hall

theorem needsRepair_false {p : Plan} {m : Nat} (h : needsRepair p m = false) :
    7 ≤ (planDays p).length ∧ ∀ d ∈ planDays p, ∃ ms, d.meals = some ms ∧ m ≤ ms.length := by
  unfold needsRepair at h
  rw [Bool.or_eq_false_iff] at h
  obtain ⟨h1, h2⟩ := h
  refine ⟨by simpa using h1, fun d hd => ?_⟩
  rw [List.any_eq_false] at h2
  have hd2 := h2 d hd
  match hm : d.meals with
  | none => rw [hm] at hd2; simp at hd2
  | some ms =>
    rw [hm] at hd2
    exact ⟨ms, rfl, by simpa using hd2⟩

theorem planDays_expand (p : Plan) (m : Nat) :
    planDays (expandProgrammatically p m) =
      padDays (((if (planDays p).isEmpty then [⟨1, day1TotalKcal p, some []⟩]
        else planDays p) : List DayPlan).map (padDayMeals m)) := rfl

/-- **C1 (counterexample) input**: eight days of five meals each. -/
def cexDay : DayPlan := ⟨1, 0, some (List.replicate 5 placeholderMeal)⟩

/-- **C1 (counterexample) input**: a plan `needsRepair` does not flag. -/
def cexPlan : Plan := ⟨none, some (List.replicate 8 cexDay), none, none, none⟩

/-- **C1 (counterexample).**  The repair pipeline never trims: a plan whose
`day_plans` already has 8 entries of 5 meals each passes `needsRepair`
untouched for `mealsPerDay = 4`, so the result has neither exactly 7 days nor
exactly 4 meals per day. -/
theorem repair_exact_shape_counterexample :
    ¬ (((repairPipeline cexPlan 4).day_plans.getD []).length = 7 ∧
        ∀ d ∈ (repairPipeline cexPlan 4).day_plans.getD [], mealsLen d = 4) := by
  intro hc
  have := hc.1
  simp [repairPipeline, needsRepair, planDays, cexPlan, cexDay] at this

/-- **C1 (amended).**  For every input plan and `mealsPerDay`, the repair
pipeline (`needsRepair` detection followed, on the deterministic fallback path,
by `expandProgrammatically`) returns a plan whose effective day list
(`day_plans`, or legacy `days` when `day_plans` is absent) has **at least** 7
entries, each carrying **at least** `mealsPerDay` meals; and when the input's
effective day list has at most 7 entries each with at most `mealsPerDay` meals,
the result has **exactly** 7 entries of exactly `mealsPerDay` meals each.
(The pipeline pads but never trims, so "exactly" fails on oversized inputs.) -/
theorem repair_shape (p : Plan) (m : Nat) :
    7 ≤ (planDays (repairPipeline p m)).length ∧
      (∀ d ∈ planDays (repairPipeline p m), m ≤ mealsLen d) ∧
      (((planDays p).length ≤ 7 ∧ ∀ d ∈ planDays p, mealsLen d ≤ m) →
        (planDays (repairPipeline p m)).length = 7 ∧
          ∀ d ∈ planDays (repairPipeline p m), mealsLen d = m) := by
  unfold repairPipeline
  by_cases hr : needsRepair p m = true
  · rw [if_pos hr]
    rw [planDays_expand]
    set L : List DayPlan := ((if (planDays p).isEmpty then
        [(⟨1, day1TotalKcal p, some []⟩ : DayPlan)]
      else planDays p).map (padDayMeals m)) with hLdef
    have hne : L ≠ [] := by
      rw [hLdef]
      by_cases he : (planDays p).isEmpty
      · simp [he]
      · simp only [if_neg he]
        simpa [List.isEmpty_iff] using he
    have hge : ∀ d ∈ L, m ≤ mealsLen d := by
      intro d hd
      rw [hLdef] at hd
      obtain ⟨d', _, rfl⟩ := List.mem_map.mp hd
      simp [padDayMeals, mealsLen, padMeals_length]
    refine ⟨?_, padDays_meals (P := fun k => m ≤ k) hge, ?_⟩
    · rw [padDays_length hne]; omega
    · rintro ⟨hlen, hml⟩
      have hlen1 : L.length ≤ 7 := by
        rw [hLdef]
        by_cases he : (planDays p).isEmpty
        · simp [he]
        · simpa [he] using hlen
      have heq : ∀ d ∈ L, mealsLen d = m := by
        intro d hd
        rw [hLdef] at hd
        obtain ⟨d', hd', rfl⟩ := List.mem_map.mp hd
        have hle : (d'.meals.getD []).length ≤ m := by
          by_cases he : (planDays p).isEmpty
          · rw [if_pos he] at hd'
            simp only [List.mem_singleton] at hd'
            subst hd'
            simp
          · rw [if_neg he] at hd'
            exact hml d' hd'
        simp only [padDayMeals, mealsLen, Option.getD_some, padMeals_length]
        omega
      have h7 : (padDays L).length = 7 := by
        rw [padDays_length hne]; omega
      exact ⟨h7, padDays_meals (P := fun k => k = m) heq⟩
  · rw [if_neg hr]
    have hrf : needsRepair p m = false := by simpa using hr
    have h := needsRepair_false hrf
    obtain ⟨h1, h2⟩ := h
    refine ⟨h1, fun d hd => ?_, fun hb => ⟨by omega, fun d hd => ?_⟩⟩
    · obtain ⟨ms, hms, hlen⟩ := h2 d hd
      simpa [mealsLen, hms] using hlen
    · obtain ⟨ms, hms, hlen⟩ := h2 d hd
      have := hb.2 d hd
      simp only [mealsLen, hms, Option.getD_some] at this ⊢
      omega

/-- Witness for `repair_shape`'s conditional part at a concrete input: the
empty plan with `mealsPerDay = 4` repairs to exactly 7 days of 4 meals. -/
theorem repair_shape_witness :
    (planDays (repairPipeline ⟨none, none, none, none, none⟩ 4)).length = 7 ∧
      ∀ d ∈ planDays (repairPipeline ⟨none, none, none, none, none⟩ 4), mealsLen d = 4 :=
  (repair_shape ⟨none, none, none, none, none⟩ 4).2.2 (by simp [planDays])

/-! ## §4 Batch-prep synthesizer (server.js lines 371–492) -/

/-- JavaScript whitespace (`\s`, `trim`), restricted to the ASCII range the
program works with. -/
def isWsJS (c : Char) : Bool :=
  c = ' ' || c = '\t' || c = '\n' || c = '\r' || c = '\x0b' || c = '\x0c'

/-- JavaScript `String.prototype.trim` on a character list. -/
def trimList (l : List Char) : List Char :=
  ((l.dropWhile isWsJS).reverse.dropWhile isWsJS).reverse

/-- `function norm(s) { return String(s || '').toLowerCase(); }` (the inputs it
receives in this model are always strings; ASCII case folding). -/
def norm (s : String) : String := String.mk (s.toList.map Char.toLower)

/-- `function prettyJoin(arr)`. -/
def prettyJoin (arr : List String) : String :=
  match arr with
  | [] => ""
  | [a] => a
  | l => String.intercalate ", " l.dropLast ++ " & " ++ (l.getLast?.getD "")

/-- `s.includes(k)` — substring containment. -/
def isPrefL : List Char → List Char → Bool
  | [], _ => true
  | _ :: _, [] => false
  | a :: as, b :: bs => a = b && isPrefL as bs

def isInfL (k : List Char) : List Char → Bool
  | [] => isPrefL k []
  | b :: bs => isPrefL k (b :: bs) || isInfL k bs

def jsIncludes (s k : String) : Bool := isInfL k.toList s.toList

/-- The fixed keyword lexicon `const KW = {...}`. -/
def KWproteins : List String :=
  ["chicken", "beef", "turkey", "tuna", "salmon", "shrimp", "cod", "egg", "eggs",
   "tofu", "tempeh", "pork", "yogurt", "cottage cheese", "beef strips",
   "lentil", "chickpea", "black bean", "beans"]

def KWcarbs : List String :=
  ["rice", "brown rice", "quinoa", "oats", "rolled oats", "pasta", "noodle",
   "potato", "sweet potato", "bread", "whole grain bread", "wrap", "tortilla"]

def KWveg : List String :=
  ["broccoli", "spinach", "mixed greens", "greens", "asparagus", "green beans",
   "mixed vegetables", "zucchini", "bell pepper", "peppers", "lettuce",
   "salad", "carrot", "celery", "corn"]

def KWbreakfast : List String :=
  ["oats", "rolled oats", "yogurt", "almond milk", "milk", "berries", "banana",
   "protein powder", "honey", "toast"]

def KWsauces : List String :=
  ["olive oil", "soy sauce", "curry", "tomato sauce", "salsa", "tahini",
   "peanut butter", "almond butter"]

/-- The branch of `extractItemNames` that selects the grocery list:
`(plan?.grocery_list && plan.grocery_list.items) || plan?.grocery_list || []`
followed by `Array.isArray(gl) && gl.length`; `some` is returned exactly when a
non-empty entry array is selected. -/
def groceryEntries (p : Plan) : Option (List IEntry) :=
  match p.grocery_list with
  | some (.arr l) => if l.isEmpty then none else some l
  | some (.obj (some l)) => if l.isEmpty then none else some l
  | some (.obj none) => none
  | none => none

/-- The raw (pre-filter, pre-dedup) lower-cased name list `extractItemNames`
accumulates: the grocery names when a non-empty grocery list exists, else every
meal ingredient name across all days. -/
def rawItemNames (p : Plan) : List String :=
  match groceryEntries p with
  | some gl => gl.map fun it => norm (entryName it)
  | none =>
    (planDays p).flatMap fun d =>
      (d.meals.getD []).flatMap fun mm =>
        (mm.ingredients.getD []).map fun i => norm (entryName i)

/-- `Array.from(new Set(list))`: deduplicate keeping first occurrences,
tracking the elements already emitted. -/
def jsDedupGo (seen : List String) : List String → List String
  | [] => []
  | a :: rest =>
    if seen.contains a then jsDedupGo seen rest else a :: jsDedupGo (a :: seen) rest

def jsDedup (l : List String) : List String := jsDedupGo [] l

/-- `function extractItemNames(plan)`. -/
def extractItemNames (p : Plan) : List String :=
  jsDedup ((rawItemNames p).filter fun s => s ≠ "")

/-- The quantity-suffix stripper `n.replace(/[-–]\s*\d+.*$/, '')`: whether the
regex matches at the character following a hyphen/en-dash (`\s*` then at least
one digit, the remainder free of newlines so that `.*$` can reach the end). -/
def qtyTail (l : List Char) : Bool :=
  match l.dropWhile isWsJS with
  | [] => false
  | c :: rest => c.isDigit && !(rest.contains '\n')

/-- Delete from the leftmost match of `/[-–]\s*\d+.*$/` to the end. -/
def stripQtyList : List Char → List Char
  | [] => []
  | c :: rest =>
    if (c = '-' || c = '–') && qtyTail rest then [] else c :: stripQtyList rest

/-- `n.replace(/[-–]\s*\d+.*$/, '').trim()`. -/
def stripQty (s : String) : String := String.mk (trimList (stripQtyList s.toList))

/-- `function filterByKeywords(names, keywords)`: keep the names hit by some
keyword (`keywords.find(k => n.includes(k))`, a found empty keyword would be
falsy), strip their quantity suffix, deduplicate. -/
def filterByKeywords (names keywords : List String) : List String :=
  jsDedup (names.filterMap fun n =>
    match keywords.find? (fun k => jsIncludes n k) with
    | some hit => if hit = "" then none else some (stripQty n)
    | none => none)

/-- The Sunday (bulk-prep) step list of `buildBatchPrepFromPlan`. -/
def sundaySteps (p : Plan) (mealsPerDay : Nat) : List String :=
  let names := extractItemNames p
  let proteins := filterByKeywords names KWproteins
  let carbs := filterByKeywords names KWcarbs
  let veg := filterByKeywords names KWveg
  let brk := filterByKeywords names KWbreakfast
  let sauces := filterByKeywords names KWsauces
  let eggs := proteins.filter fun x => jsIncludes x "egg"
  let nonEggs := proteins.filter fun x => !(jsIncludes x "egg")
  let ovenables := carbs.filter fun c => jsIncludes c "potato"
  let stovetop := carbs.filter fun c => !(jsIncludes c "potato")
  let leafy := veg.filter fun v =>
    jsIncludes v "green" || jsIncludes v "spinach" || jsIncludes v "salad" ||
      jsIncludes v "lettuce"
  let firm := veg.filter fun v => !(leafy.contains v)
  (if proteins.isEmpty then [] else
    (if nonEggs.isEmpty then [] else
      ["Cook proteins in bulk: " ++ prettyJoin nonEggs ++
        ". Season simply (salt/pepper). Portion for ~3–4 days; freeze extra."]) ++
    (if eggs.isEmpty then [] else ["Hard-boil eggs for quick meals/snacks."])) ++
  (if carbs.isEmpty then [] else
    (if stovetop.isEmpty then [] else
      ["Batch-cook grains/carbs: " ++ prettyJoin stovetop ++ "."]) ++
    (if ovenables.isEmpty then [] else
      ["Roast/bake: " ++ prettyJoin ovenables ++ "."])) ++
  (if veg.isEmpty then [] else
    (if firm.isEmpty then [] else
      ["Wash/chop sturdy veg: " ++ prettyJoin firm ++ ". Store in airtight containers."]) ++
    (if leafy.isEmpty then [] else
      ["Rinse/dry leafy greens (" ++ prettyJoin leafy ++
        "); keep with paper towel to stay crisp."])) ++
  (if brk.isEmpty then [] else
    ["Assemble " ++
      (if 4 ≤ mealsPerDay then "overnight oats / smoothie packs" else "breakfast packs") ++
      " using " ++ prettyJoin (brk.take 5) ++ "."]) ++
  (if sauces.isEmpty then [] else
    ["Mix quick sauces/marinades: " ++ prettyJoin (sauces.take 4) ++ ". Store in jars."]) ++
  ["Label containers with meal/day. Aim for " ++ toString mealsPerDay ++
    " meals per day × 7 days."]

/-- The Thursday (mid-week top-up) step list of `buildBatchPrepFromPlan`. -/
def thursdaySteps (p : Plan) : List String :=
  let names := extractItemNames p
  let proteins := filterByKeywords names KWproteins
  let carbs := filterByKeywords names KWcarbs
  let veg := filterByKeywords names KWveg
  (if proteins.isEmpty then [] else
    ["Top-up proteins (" ++ prettyJoin proteins ++ "). Reheat from frozen if pre-portioned."]) ++
  (if carbs.isEmpty then [] else
    ["Cook a small fresh batch of carbs if low (e.g., " ++ prettyJoin (carbs.take 3) ++ ")."]) ++
  (if veg.isEmpty then [] else
    ["Refresh veg: chop a new batch and portion for lunches/dinners."]) ++
  ["Re-portion snacks; take inventory; adjust portions to stay on target."]

/-- `function buildBatchPrepFromPlan(plan, mealsPerDay)`: the source pushes the
Sunday and Thursday steps into two accumulators interleaved (both inside each
keyword-bucket `if`); the per-day push order is the one reproduced by
`sundaySteps` / `thursdaySteps`. -/
def buildBatchPrepFromPlan (p : Plan) (mealsPerDay : Nat) : List BDay :=
  [⟨"Sunday", some (sundaySteps p mealsPerDay)⟩,
   ⟨"Thursday", some (thursdaySteps p)⟩]

theorem getLast?_append_some {α : Type} {l₂ : List α} {a : α} (l₁ : List α)
    (h : l₂.getLast? = some a) : (l₁ ++ l₂).getLast? = some a := by
  rw [List.getLast?_append_of_ne_nil]
  · exact h
  · intro hc; subst hc; simp at h

/-- **C10.**  `buildBatchPrepFromPlan` always returns exactly two day entries,
`Sunday` then `Thursday`, each with at least one step; whatever the plan
contains, the Sunday list ends with the fixed container-labeling reminder and
the Thursday list ends with the fixed inventory/adjustment reminder. -/
theorem batchPrep_two_day_shape (p : Plan) (m : Nat) :
    buildBatchPrepFromPlan p m =
        [⟨"Sunday", some (sundaySteps p m)⟩, ⟨"Thursday", some (thursdaySteps p)⟩] ∧
      sundaySteps p m ≠ [] ∧ thursdaySteps p ≠ [] ∧
      (sundaySteps p m).getLast? =
        some ("Label containers with meal/day. Aim for " ++ toString m ++
          " meals per day × 7 days.") ∧
      (thursdaySteps p).getLast? =
        some "Re-portion snacks; take inventory; adjust portions to stay on target." := by
  have hsun : (sundaySteps p m).getLast? =
      some ("Label containers with meal/day. Aim for " ++ toString m ++
        " meals per day × 7 days.") := List.getLast?_concat _
  have hthu : (thursdaySteps p).getLast? =
      some "Re-portion snacks; take inventory; adjust portions to stay on target." :=
    List.getLast?_concat _
  refine ⟨rfl, ?_, ?_, hsun, hthu⟩
  · intro hc; rw [hc] at hsun; simp at hsun
  · intro hc; rw [hc] at hthu; simp at hthu

/-! ### Groundedness of the synthesized step contents (C4) -/

theorem jsDedupGo_subset {x : String} :
    ∀ {seen l : List String}, x ∈ jsDedupGo seen l → x ∈ l := by
  intro seen l
  induction l generalizing seen with
  | nil => intro h; simp [jsDedupGo] at h
  | cons a rest ih =>
    intro h
    rw [jsDedupGo] at h
    by_cases hs : seen.contains a
    · rw [if_pos hs] at h
      exact List.mem_cons_of_mem _ (ih h)
    · rw [if_neg hs] at h
      rcases List.mem_cons.mp h with rfl | h2
      · exact List.mem_cons_self _ _
      · exact List.mem_cons_of_mem _ (ih h2)

theorem jsDedup_subset {x : String} {l : List String} (h : x ∈ jsDedup l) : x ∈ l :=
  jsDedupGo_subset h

theorem extractItemNames_subset {x : String} {p : Plan}
    (h : x ∈ extractItemNames p) : x ∈ rawItemNames p :=
  List.mem_of_mem_filter (jsDedup_subset h)

theorem filterByKeywords_grounded {names keywords : List String} {x : String}
    (h : x ∈ filterByKeywords names keywords) : ∃ n ∈ names, x = stripQty n := by
  have h2 := jsDedup_subset h
  obtain ⟨n, hn, hf⟩ := List.mem_filterMap.mp h2
  refine ⟨n, hn, ?_⟩
  cases hfind : keywords.find? (fun k => jsIncludes n k) with
  | none => simp only [hfind] at hf; exact Option.noConfusion hf
  | some hit =>
    simp only [hfind] at hf
    by_cases hh : hit = ""
    · rw [if_pos hh] at hf; simp at hf
    · rw [if_neg hh] at hf
      exact (Option.some_inj.mp hf).symm

/-- Every food name interpolated into a batch-prep step comes from one of the
five keyword buckets; this is their concatenation (the egg/non-egg,
potato/stovetop, leafy/firm splits and the `take` truncations inside
`sundaySteps`/`thursdaySteps` are sublists of these). -/
def batchFoodNames (p : Plan) : List String :=
  filterByKeywords (extractItemNames p) KWproteins ++
  filterByKeywords (extractItemNames p) KWcarbs ++
  filterByKeywords (extractItemNames p) KWveg ++
  filterByKeywords (extractItemNames p) KWbreakfast ++
  filterByKeywords (extractItemNames p) KWsauces

/-- **C4.**  Every food name a synthesized batch-prep step can mention is
traceable to an ingredient or grocery-list name of the input plan: it is the
lower-cased form of such a name with any trailing quantity suffix stripped.
(`rawItemNames` is exactly the lower-cased grocery/ingredient name list the
synthesizer reads; `batchFoodNames` are the bucket entries `buildBatchPrepFromPlan`
interpolates into its step strings.) -/
theorem batchPrep_grounded (p : Plan) (x : String) (hx : x ∈ batchFoodNames p) :
    ∃ n ∈ rawItemNames p, x = stripQty n := by
  have hx' : ∃ kws, x ∈ filterByKeywords (extractItemNames p) kws := by
    simp only [batchFoodNames, List.mem_append] at hx
    rcases hx with ((((h | h) | h) | h) | h) <;> exact ⟨_, h⟩
  obtain ⟨kws, hk⟩ := hx'
  obtain ⟨n, hn, he⟩ := filterByKeywords_grounded hk
  exact ⟨n, extractItemNames_subset hn, he⟩

/-- Concrete input for the `batchPrep_grounded` witness. -/
def groundedWitnessPlan : Plan :=
  ⟨none, none, none, some (.arr [.str "Chicken Breast - 2 lbs"]), none⟩

/-- Witness for `batchPrep_grounded`: the bucket entry `"chicken breast"` is the
stripped lower-casing of the grocery name `"Chicken Breast - 2 lbs"`. -/
theorem batchPrep_grounded_witness :
    ∃ n ∈ rawItemNames groundedWitnessPlan, "chicken breast" = stripQty n :=
  batchPrep_grounded groundedWitnessPlan "chicken breast" (by decide)

/-! ### `ensureBatchPrep` and its merge policy (C5) -/

/-- `new Set(current.flatMap(d => (d.steps || [])))` — the union of all
existing steps, against which the merge tests verbatim presence. -/
def allSteps (cur : List BDay) : List String := cur.flatMap fun d => d.steps.getD []

/-- `current.length < 2 || current.reduce((n, d) => n + ((d?.steps || []).length), 0) < 4`. -/
def isWeakBatch (current : List BDay) : Bool :=
  current.length < 2 ||
    (current.foldl (fun n d => n + (d.steps.getD []).length) 0) < 4

/-- One iteration of the `generated.forEach(g => ...)` merge: find the first
entry whose normalized day matches `g`'s (else push a fresh `{day, steps: []}`
at the end), then append every step of `g` not in the `have` set.  Returns
`none` when the matched slot has no `steps` array but a step must be pushed —
there the source faults on `slot.steps.push` (`undefined` has no `push`). -/
def mergeOne (haveSteps : List String) (g : BDay) : List BDay → Option (List BDay)
  | [] =>
    some [⟨g.day, some ((g.steps.getD []).filter fun s => !(haveSteps.contains s))⟩]
  | d :: rest =>
    if norm d.day = norm g.day then
      match d.steps with
      | some st =>
        some ({ d with
          steps := some (st ++ (g.steps.getD []).filter fun s => !(haveSteps.contains s)) }
            :: rest)
      | none =>
        if ((g.steps.getD []).filter fun s => !(haveSteps.contains s)).isEmpty then
          some (d :: rest)
        else none
    else
      (mergeOne haveSteps g rest).map (d :: ·)

/-- `function ensureBatchPrep(plan, mealsPerDay)`.  `none` models the
`TypeError` path described at `mergeOne`. -/
def ensureBatchPrep (p : Plan) (m : Nat) : Option Plan :=
  let current := p.batch_prep.getD []
  if isWeakBatch current then
    some { p with batch_prep := some (buildBatchPrepFromPlan p m) }
  else
    ((buildBatchPrepFromPlan p m).foldlM
        (fun cur g => mergeOne (allSteps current) g cur) current).map
      fun cur => { p with batch_prep := some cur }

/-- `cur'` extends `cur`: same entries at the same indices, with the same day
labels and the original step lists as prefixes. -/
structure ExtendsB (cur cur' : List BDay) : Prop where
  len : cur.length ≤ cur'.length
  ext : ∀ (i : Nat) (e e' : BDay), cur[i]? = some e → cur'[i]? = some e' →
    e'.day = e.day ∧ (e.steps.getD []) <+: (e'.steps.getD [])

theorem ExtendsB_refl (cur : List BDay) : ExtendsB cur cur := by
  refine ⟨le_refl _, fun i e e' h h' => ?_⟩
  rw [h] at h'
  cases Option.some_inj.mp h'
  exact ⟨rfl, List.prefix_refl _⟩

theorem ExtendsB_trans {a b c : List BDay} (h1 : ExtendsB a b) (h2 : ExtendsB b c) :
    ExtendsB a c := by
  refine ⟨le_trans h1.len h2.len, fun i e e' ha hc => ?_⟩
  have hia : i < a.length := by
    by_contra hlt
    rw [List.getElem?_eq_none (by omega)] at ha
    exact Option.noConfusion ha
  have hib : i < b.length := lt_of_lt_of_le hia h1.len
  have hb : b[i]? = some (b.get ⟨i, hib⟩) := List.getElem?_eq_getElem hib
  obtain ⟨hd1, hp1⟩ := h1.ext i e _ ha hb
  obtain ⟨hd2, hp2⟩ := h2.ext i _ e' hb hc
  exact ⟨hd2.trans hd1, hp1.trans hp2⟩

theorem ExtendsB_cons {d : BDay} {a b : List BDay} (h : ExtendsB a b) :
    ExtendsB (d :: a) (d :: b) := by
  refine ⟨by simpa using h.len, fun i e e' ha hb => ?_⟩
  cases i with
  | zero =>
    simp only [List.getElem?_cons_zero] at ha hb
    cases Option.some_inj.mp ha
    cases Option.some_inj.mp hb
    exact ⟨rfl, List.prefix_refl _⟩
  | succ j =>
    simp only [List.getElem?_cons_succ] at ha hb
    exact h.ext j e e' ha hb

theorem mergeOne_extends {haveSteps : List String} {g : BDay} :
    ∀ {cur cur' : List BDay}, mergeOne haveSteps g cur = some cur' → ExtendsB cur cur' := by
  intro cur
  induction cur with
  | nil =>
    intro cur' h
    rw [mergeOne] at h
    cases Option.some_inj.mp h
    exact ⟨by simp, fun i e e' ha _ => absurd ha (by simp)⟩
  | cons d rest ih =>
    intro cur' h
    rw [mergeOne] at h
    by_cases hd : norm d.day = norm g.day
    · rw [if_pos hd] at h
      cases hst : d.steps with
      | some st =>
        rw [hst] at h
        cases Option.some_inj.mp h
        refine ⟨by simp, fun i e e' ha hb => ?_⟩
        cases i with
        | zero =>
          simp only [List.getElem?_cons_zero] at ha hb
          cases Option.some_inj.mp ha
          cases Option.some_inj.mp hb
          exact ⟨rfl, by simp [hst]⟩
        | succ j =>
          simp only [List.getElem?_cons_succ] at ha hb
          rw [ha] at hb
          cases Option.some_inj.mp hb
          exact ⟨rfl, List.prefix_refl _⟩
      | none =>
        rw [hst] at h
        by_cases he : ((g.steps.getD []).filter fun s => !(haveSteps.contains s)).isEmpty
        · rw [if_pos he] at h
          cases Option.some_inj.mp h
          exact ExtendsB_refl _
        · rw [if_neg he] at h
          exact Option.noConfusion h
    · rw [if_neg hd] at h
      cases hrec : mergeOne haveSteps g rest with
      | none => rw [hrec] at h; exact Option.noConfusion h
      | some rest' =>
        rw [hrec] at h
        cases Option.some_inj.mp h
        exact ExtendsB_cons (ih hrec)

theorem ExtendsB_mem {c c' : List BDay} (hx : ExtendsB c c') {e : BDay} {s : String}
    (he : e ∈ c) (hs : s ∈ e.steps.getD []) :
    ∃ e' ∈ c', e'.day = e.day ∧ s ∈ e'.steps.getD [] := by
  obtain ⟨i, hi, rfl⟩ := List.getElem_of_mem he
  have hi' : i < c'.length := lt_of_lt_of_le hi hx.len
  obtain ⟨hd, hp⟩ := hx.ext i _ _ (List.getElem?_eq_getElem hi) (List.getElem?_eq_getElem hi')
  exact ⟨c'.get ⟨i, hi'⟩, List.getElem_mem hi', hd, hp.subset hs⟩

theorem mergeOne_mem {haveSteps : List String} {g : BDay} {s : String}
    (hs : s ∈ g.steps.getD []) (hnot : ¬ s ∈ haveSteps) :
    ∀ {cur cur' : List BDay}, mergeOne haveSteps g cur = some cur' →
      ∃ e ∈ cur', norm e.day = norm g.day ∧ s ∈ e.steps.getD [] := by
  have hadd : s ∈ (g.steps.getD []).filter fun x => !(haveSteps.contains x) := by
    rw [List.mem_filter]
    exact ⟨hs, by simpa using hnot⟩
  intro cur
  induction cur with
  | nil =>
    intro cur' h
    rw [mergeOne] at h
    cases Option.some_inj.mp h
    exact ⟨_, List.mem_cons_self _ _, rfl, by simpa using hadd⟩
  | cons d rest ih =>
    intro cur' h
    rw [mergeOne] at h
    by_cases hd : norm d.day = norm g.day
    · rw [if_pos hd] at h
      cases hst : d.steps with
      | some st =>
        rw [hst] at h
        cases Option.some_inj.mp h
        refine ⟨_, List.mem_cons_self _ _, hd, ?_⟩
        simp only [Option.getD_some]
        exact List.mem_append.mpr (Or.inr hadd)
      | none =>
        rw [hst] at h
        by_cases he : ((g.steps.getD []).filter fun x => !(haveSteps.contains x)).isEmpty
        · rw [List.isEmpty_iff] at he
          rw [he] at hadd
          exact absurd hadd (List.not_mem_nil _)
        · rw [if_neg he] at h
          exact Option.noConfusion h
    · rw [if_neg hd] at h
      cases hrec : mergeOne haveSteps g rest with
      | none => rw [hrec] at h; exact Option.noConfusion h
      | some rest' =>
        rw [hrec] at h
        cases Option.some_inj.mp h
        obtain ⟨e, he, hne, hse⟩ := ih hrec
        exact ⟨e, List.mem_cons_of_mem _ he, hne, hse⟩

/-- **C5 (amended).**  Merge policy of `ensureBatchPrep`: an existing
`batch_prep` with fewer than 2 day entries or fewer than 4 total steps is
fully replaced by the synthesized result; otherwise (when the merge
completes) every pre-existing entry keeps its position, day label and steps
(as a prefix of the merged steps), and every synthesized step not already
present verbatim among the existing steps — the source's `have` set, drawn
from the union of *all* existing days, not from the matched day alone (see
`ensureBatchPrep_per_day_counterexample`) — lands in an entry whose
normalized day label matches the synthesized day's. -/
theorem ensureBatchPrep_merge_policy (p : Plan) (m : Nat) :
    (isWeakBatch (p.batch_prep.getD []) = true →
        ensureBatchPrep p m =
          some { p with batch_prep := some (buildBatchPrepFromPlan p m) }) ∧
      (isWeakBatch (p.batch_prep.getD []) = false →
        ∀ res, ensureBatchPrep p m = some res →
          ∃ cur', res = { p with batch_prep := some cur' } ∧
            ExtendsB (p.batch_prep.getD []) cur' ∧
            ∀ g ∈ buildBatchPrepFromPlan p m, ∀ s ∈ g.steps.getD [],
              s ∉ allSteps (p.batch_prep.getD []) →
              ∃ e ∈ cur', norm e.day = norm g.day ∧ s ∈ e.steps.getD []) := by
  constructor
  · intro hw
    simp only [ensureBatchPrep]
    rw [if_pos hw]
  · intro hw res hres
    simp only [ensureBatchPrep, buildBatchPrepFromPlan, List.foldlM] at hres
    rw [if_neg (by rw [hw]; exact Bool.false_ne_true)] at hres
    cases h1 : mergeOne (allSteps (p.batch_prep.getD []))
        ⟨"Sunday", some (sundaySteps p m)⟩ (p.batch_prep.getD []) with
    | none => rw [h1] at hres; simp at hres
    | some c1 =>
      rw [h1] at hres
      simp only [Option.bind_eq_bind, Option.some_bind] at hres
      cases h2 : mergeOne (allSteps (p.batch_prep.getD []))
          ⟨"Thursday", some (thursdaySteps p)⟩ c1 with
      | none => rw [h2] at hres; simp at hres
      | some c2 =>
        rw [h2] at hres
        simp only [Option.some_bind, Option.pure_def, Option.map_some', Option.some_inj] at hres
        refine ⟨c2, hres.symm, ExtendsB_trans (mergeOne_extends h1) (mergeOne_extends h2),
          fun g hg s hs hnot => ?_⟩
        simp only [buildBatchPrepFromPlan, List.mem_cons, List.mem_singleton] at hg
        rcases hg with rfl | rfl | hc
        · obtain ⟨e, he, hne, hse⟩ := mergeOne_mem hs hnot h1
          obtain ⟨e', he', hd', hs'⟩ := ExtendsB_mem (mergeOne_extends h2) he hse
          exact ⟨e', he', by rw [hd']; exact hne, hs'⟩
        · exact mergeOne_mem hs hnot h2
        · exact absurd hc (List.not_mem_nil _)

/-- Witness for `ensureBatchPrep_merge_policy`: a plan without `batch_prep`
counts as weak, so the section is fully replaced by the synthesized result. -/
theorem ensureBatchPrep_merge_policy_witness :
    ensureBatchPrep ⟨none, none, none, none, none⟩ 4 =
      some { (⟨none, none, none, none, none⟩ : Plan) with
        batch_prep := some (buildBatchPrepFromPlan ⟨none, none, none, none, none⟩ 4) } :=
  (ensureBatchPrep_merge_policy ⟨none, none, none, none, none⟩ 4).1 rfl

/-- The fixed Thursday reminder step, pushed last by the synthesizer. -/
def cexThuStep : String :=
  "Re-portion snacks; take inventory; adjust portions to stay on target."

/-- A plan whose existing `batch_prep` is strong (2 day entries, 4 total
steps) and whose *Sunday* entry already contains, verbatim, the synthesized
Thursday reminder — while its Thursday entry does not. -/
def cexMergePlan : Plan :=
  ⟨none, none, none, none,
    some [⟨"Sunday", some [cexThuStep, "Defrost chicken", "Cook rice", "Chop veg"]⟩,
      ⟨"Thursday", some []⟩]⟩

/-- **C5 (counterexample).**  The claim asserts that each synthesized step not
already present verbatim in the matched *day's own* step list is appended to
that day.  The source instead tests presence against `new Set(current.flatMap
(d => d.steps || []))` — the union over *all* existing days.  Here the
synthesized Thursday reminder is generated for Thursday and absent from the
existing Thursday entry, yet because it already sits verbatim under the
existing *Sunday* entry the merge completes without appending it: no
Thursday-labelled entry of the result contains it. -/
theorem ensureBatchPrep_per_day_counterexample :
    isWeakBatch (cexMergePlan.batch_prep.getD []) = false ∧
      (ensureBatchPrep cexMergePlan 4).isSome = true ∧
      cexThuStep ∈ thursdaySteps cexMergePlan ∧
      (∀ e ∈ cexMergePlan.batch_prep.getD [],
        norm e.day = norm "Thursday" → cexThuStep ∉ e.steps.getD []) ∧
      ∀ e ∈ ((ensureBatchPrep cexMergePlan 4).map fun r => r.batch_prep.getD []).getD [],
        norm e.day = norm "Thursday" → cexThuStep ∉ e.steps.getD [] := by
  decide

/-! ## §5 Workout plan text parser (server.js lines 80–92)

`parseWorkoutPlanText` strips `**` markers, splits on `\r?\n`, trims each
line, and scans with current-week / current-day cursors:
a `^Week\s+(\d+)` (case-insensitive) line opens a week, a `^Day\s+\d+` line
opens a day under the current week, and any other non-empty line containing a
colon while a day is open is appended verbatim as an exercise. -/

/-- `planText.replace(/\*\*/g, '')`: left-to-right removal of
non-overlapping `**` pairs. -/
def stripStars : List Char → List Char
  | [] => []
  | [c] => [c]
  | a :: b :: rest =>
    if a = '*' && b = '*' then stripStars rest else a :: stripStars (b :: rest)

/-- No two adjacent `*` characters (the strings `replace(/\*\*/g,'')` fixes). -/
def noDbl : List Char → Bool
  | [] => true
  | [_] => true
  | a :: b :: rest => !(a = '*' && b = '*') && noDbl (b :: rest)

/-- `split(/\r?\n/)`: `\r\n` or a lone `\n` separate lines; a `\r` not
followed by `\n` stays in its line. -/
def splitLines : List Char → List (List Char)
  | [] => [[]]
  | '\r' :: '\n' :: rest => [] :: splitLines rest
  | '\n' :: rest => [] :: splitLines rest
  | c :: rest =>
    match splitLines rest with
    | [] => [[c]]
    | l :: ls => (c :: l) :: ls

/-- Join lines with `'\n'` (the canonical serialization separator). -/
def joinLines : List (List Char) → List Char
  | [] => []
  | [l] => l
  | l :: ls => l ++ '\n' :: joinLines ls

/-- Case-insensitive literal prefix match (the `i` flag of the source
regexes); returns the remainder after the pattern. -/
def matchCI : List Char → List Char → Option (List Char)
  | [], l => some l
  | _ :: _, [] => none
  | p :: ps, c :: cs => if c.toLower = p.toLower then matchCI ps cs else none

/-- The numeric value of a decimal digit run (`+w[1]`). -/
def digitsToNat (l : List Char) : Nat :=
  l.foldl (fun a c => 10 * a + (c.toNat - 48)) 0

/-- `\s+(\d+)`: at least one whitespace, then the (greedy, captured) digit
run. -/
def parseWsNum : List Char → Option Nat
  | [] => none
  | c :: rest =>
    if isWsJS c then
      match (rest.dropWhile isWsJS).takeWhile Char.isDigit with
      | [] => none
      | d :: ds => some (digitsToNat (d :: ds))
    else none

/-- `line.match(/^Week\s+(\d+)/i)`, returning the captured week number. -/
def matchWeekNum (l : List Char) : Option Nat :=
  (matchCI "week".toList l).bind parseWsNum

/-- `line.match(/^Day\s+\d+/i)`. -/
def matchDay (l : List Char) : Bool :=
  ((matchCI "day".toList l).bind parseWsNum).isSome

/-- A parsed day `{ name: line, ex: [] }`. -/
structure WDay where
  name : List Char
  ex : List (List Char)
deriving DecidableEq

/-- A parsed week `{ number: +w[1], days: [] }`. -/
structure WWeek where
  number : Nat
  days : List WDay
deriving DecidableEq

/-! The source scans with two mutable references: `currentWeek` is always
the week most recently pushed into `weeks` (it is never reset), and
`currentDay` is the day most recently pushed into the then-current week's
`days` (it is never reset either — in particular a `Week` header does *not*
close the open day, so a colon line between a week header and that week's
first `Day` line still appends to the previous week's last day).  Since days
are only ever pushed onto the then-last week, `currentDay` is non-null
exactly when some pushed week has a nonempty `days` list, and it is then the
last day of the last such week; the mutations below update that day (or the
last week) in place inside the `weeks` list, which is the whole loop state. -/

/-- `currentDay.ex.push(line)` within one week's `days` list: append to its
last day. -/
def pushExDays (e : List Char) : List WDay → List WDay
  | [] => []
  | d :: ds => if ds.isEmpty then [⟨d.name, d.ex ++ [e]⟩] else d :: pushExDays e ds

/-- `currentWeek.days.push(currentDay)`: `currentWeek` is the last pushed
week. -/
def pushDayW (name : List Char) : List WWeek → List WWeek
  | [] => []
  | w :: ws =>
    if ws.isEmpty then [⟨w.number, w.days ++ [⟨name, []⟩]⟩] else w :: pushDayW name ws

/-- `currentDay !== null`: some pushed week has a nonempty day list. -/
def hasCurDay (ws : List WWeek) : Bool := ws.any fun w => !w.days.isEmpty

/-- `currentDay.ex.push(line)` through the reference: append to the last day
of the last week with days. -/
def pushExW (e : List Char) : List WWeek → List WWeek
  | [] => []
  | w :: ws =>
    if hasCurDay ws then w :: pushExW e ws
    else if w.days.isEmpty then w :: ws
    else ⟨w.number, pushExDays e w.days⟩ :: ws

/-- One iteration of the scan loop over a (trimmed) line: skip empty lines; a
`Week` header pushes a fresh week (leaving the open day untouched); a `Day`
line opens a day under the current week when one exists (`d && currentWeek`);
otherwise a colon line is appended to the open day when one exists
(`currentDay && /:/.test(line)`). -/
def stepLine (ws : List WWeek) (line : List Char) : List WWeek :=
  if line.isEmpty then ws
  else
    match matchWeekNum line with
    | some n => ws ++ [⟨n, []⟩]
    | none =>
      if matchDay line && !ws.isEmpty then pushDayW line ws
      else if hasCurDay ws && line.contains ':' then pushExW line ws
      else ws

def parseLines (lines : List (List Char)) : List WWeek :=
  lines.foldl stepLine []

def parseWorkoutCore (t : List Char) : List WWeek :=
  parseLines ((splitLines (stripStars t)).map trimList)

/-- `function parseWorkoutPlanText(planText)`. -/
def parseWorkoutPlanText (s : String) : List WWeek := parseWorkoutCore s.toList

/-- The same entry point fed a possibly `null`/`undefined` argument:
`(planText || '')`. -/
def parseWorkoutPlanTextJS (o : Option String) : List WWeek :=
  parseWorkoutPlanText (o.getD "")

/-! ### Canonical serialization (for the round-trip property) -/

/-- Decimal digit printer, fuelled so that it reduces in the kernel
(`fuel > n` always suffices since `n / 10 < n` for `n ≥ 10`). -/
def natToCharsAux : Nat → Nat → List Char
  | 0, _ => []
  | fuel + 1, n =>
    if n < 10 then [Char.ofNat (48 + n)]
    else natToCharsAux fuel (n / 10) ++ [Char.ofNat (48 + n % 10)]

/-- Decimal digit printer for the canonical `Week N` header. -/
def natToChars (n : Nat) : List Char := natToCharsAux (n + 1) n

/-- The lines of one serialized day: its name line then its exercise lines. -/
def dayLines (d : WDay) : List (List Char) := d.name :: d.ex

/-- The lines of one serialized week: a `Week N` header then its days. -/
def weekLines (w : WWeek) : List (List Char) :=
  ("Week ".toList ++ natToChars w.number) :: w.days.flatMap dayLines

/-- Canonical text of a parsed plan: one `Week N` line per week, then each
day's name line and exercise lines, joined by newlines. -/
def serializePlan (ws : List WWeek) : String :=
  String.mk (joinLines (ws.flatMap weekLines))

/-! ### `stripStars` and `noDbl` -/

theorem noDbl_cons {a : Char} {l : List Char} (h : noDbl (a :: l) = true) : noDbl l = true := by
  cases l with
  | nil => rfl
  | cons b r =>
    rw [noDbl, Bool.and_eq_true] at h
    exact h.2

theorem stripStars_cons_ne_star {b : Char} (rest : List Char) (h : b ≠ '*') :
    stripStars (b :: rest) = b :: stripStars rest := by
  cases rest with
  | nil => rfl
  | cons r rs => rw [stripStars, if_neg (by simp [h])]

theorem noDbl_stripStars : ∀ (l : List Char), noDbl (stripStars l) = true := by
  intro l
  induction l using stripStars.induct with
  | case1 => rfl
  | case2 c => rfl
  | case3 a b rest h ih => rw [stripStars, if_pos h]; exact ih
  | case4 a b rest h ih =>
    rw [stripStars, if_neg h]
    simp only [Bool.and_eq_true, decide_eq_true_eq, not_and] at h
    by_cases ha : a = '*'
    · have hb : b ≠ '*' := h ha
      rw [stripStars_cons_ne_star _ hb] at ih ⊢
      rw [noDbl, Bool.and_eq_true]
      exact ⟨by simp [hb], ih⟩
    · cases hx : stripStars (b :: rest) with
      | nil => rfl
      | cons x xs =>
        rw [hx] at ih
        rw [noDbl, Bool.and_eq_true]
        exact ⟨by simp [ha], ih⟩

theorem stripStars_of_noDbl : ∀ {l : List Char}, noDbl l = true → stripStars l = l := by
  intro l
  induction l using stripStars.induct with
  | case1 => intro _; rfl
  | case2 c => intro _; rfl
  | case3 a b rest h ih =>
    intro hn
    rw [noDbl, Bool.and_eq_true] at hn
    obtain ⟨hn1, _⟩ := hn
    rw [h] at hn1
    exact absurd hn1 (by decide)
  | case4 a b rest h ih =>
    intro hn
    rw [stripStars, if_neg h]
    rw [noDbl, Bool.and_eq_true] at hn
    rw [ih hn.2]

theorem noDbl_append_left : ∀ (a b : List Char), noDbl (a ++ b) = true → noDbl a = true
  | [], _, _ => rfl
  | [_], _, _ => rfl
  | x :: y :: xs, b, h => by
    rw [List.cons_append, List.cons_append, noDbl, Bool.and_eq_true] at h
    rw [noDbl, Bool.and_eq_true]
    exact ⟨h.1, noDbl_append_left (y :: xs) b (by rw [List.cons_append]; exact h.2)⟩

theorem noDbl_append_right (a : List Char) {b : List Char} (h : noDbl (a ++ b) = true) :
    noDbl b = true := by
  induction a with
  | nil => exact h
  | cons x xs ih =>
    rw [List.cons_append] at h
    exact ih (noDbl_cons h)

theorem noDbl_infix {a l : List Char} (h : a <:+: l) (hd : noDbl l = true) :
    noDbl a = true := by
  obtain ⟨s, t, rfl⟩ := h
  exact noDbl_append_left a t (noDbl_append_right s (by rwa [List.append_assoc] at hd))

theorem noDbl_append_newline : ∀ (a : List Char) {b : List Char},
    noDbl a = true → noDbl b = true → noDbl (a ++ '\n' :: b) = true
  | [], b, _, hb => by
    cases b with
    | nil => rfl
    | cons c cs =>
      show noDbl ('\n' :: c :: cs) = true
      rw [noDbl, Bool.and_eq_true]
      exact ⟨by simp, hb⟩
  | [x], b, _, hb => by
    show noDbl (x :: '\n' :: b) = true
    rw [noDbl, Bool.and_eq_true]
    exact ⟨by simp, noDbl_append_newline [] rfl hb⟩
  | x :: y :: xs, b, ha, hb => by
    rw [noDbl, Bool.and_eq_true] at ha
    show noDbl (x :: y :: (xs ++ '\n' :: b)) = true
    rw [noDbl, Bool.and_eq_true]
    exact ⟨ha.1, noDbl_append_newline (y :: xs) ha.2 hb⟩

/-- `*` never occurs in a line, so no `**` does either. -/
theorem noDbl_of_no_star : ∀ {l : List Char}, ¬ '*' ∈ l → noDbl l = true
  | [], _ => rfl
  | [_], _ => rfl
  | x :: y :: xs, h => by
    have hx : x ≠ '*' := fun hx => h (by rw [hx]; exact List.mem_cons_self _ _)
    rw [noDbl, Bool.and_eq_true]
    exact ⟨by simp [hx], noDbl_of_no_star fun hm => h (List.mem_cons_of_mem _ hm)⟩

/-! ### `splitLines` structure -/

theorem splitLines_cons_eq {c : Char} {rest : List Char}
    (h1 : ∀ r, c = '\r' → rest = '\n' :: r → False) (h2 : ¬ c = '\n') :
    splitLines (c :: rest) =
      match splitLines rest with
      | [] => [[c]]
      | l :: ls => (c :: l) :: ls := by
  rw [splitLines.eq_def]
  split
  · rename_i heq
    exact absurd heq (by simp)
  · rename_i r heq
    rw [List.cons.injEq] at heq
    exact (h1 r heq.1 heq.2).elim
  · rename_i r heq
    rw [List.cons.injEq] at heq
    exact absurd heq.1 h2
  · rename_i c' rest' hx1 hx2 heq
    rw [List.cons.injEq] at heq
    rw [heq.1, heq.2]

theorem splitLines_ne_nil : ∀ (l : List Char), splitLines l ≠ [] := by
  intro l
  induction l using splitLines.induct with
  | case1 => simp [splitLines]
  | case2 rest ih => rw [show splitLines ('\r' :: '\n' :: rest) = [] :: splitLines rest from rfl]; simp
  | case3 rest ih => rw [show splitLines ('\n' :: rest) = [] :: splitLines rest from rfl]; simp
  | case4 c rest h1 h2 hrest ih =>
    rw [splitLines_cons_eq h1 (fun hc => h2 hc), hrest]; simp
  | case5 c rest h1 h2 l ls hrest ih =>
    rw [splitLines_cons_eq h1 (fun hc => h2 hc), hrest]; simp

theorem splitLines_no_newline :
    ∀ (l : List Char), ∀ piece ∈ splitLines l, ¬ '\n' ∈ piece := by
  intro l
  induction l using splitLines.induct with
  | case1 =>
    intro piece hp
    rw [show splitLines [] = [[]] from rfl] at hp
    simp at hp; subst hp; simp
  | case2 rest ih =>
    intro piece hp
    rw [show splitLines ('\r' :: '\n' :: rest) = [] :: splitLines rest from rfl] at hp
    rcases List.mem_cons.mp hp with rfl | hp
    · simp
    · exact ih piece hp
  | case3 rest ih =>
    intro piece hp
    rw [show splitLines ('\n' :: rest) = [] :: splitLines rest from rfl] at hp
    rcases List.mem_cons.mp hp with rfl | hp
    · simp
    · exact ih piece hp
  | case4 c rest h1 h2 hrest ih =>
    intro piece hp
    rw [splitLines_cons_eq h1 (fun hc => h2 hc), hrest] at hp
    simp only [List.mem_singleton] at hp
    subst hp
    simp only [List.mem_singleton]
    exact fun hc => h2 hc.symm
  | case5 c rest h1 h2 l ls hrest ih =>
    intro piece hp
    rw [splitLines_cons_eq h1 (fun hc => h2 hc), hrest] at hp
    rcases List.mem_cons.mp hp with rfl | hp
    · intro hm
      rcases List.mem_cons.mp hm with hc | hm
      · exact h2 hc.symm
      · exact ih l (hrest ▸ List.mem_cons_self _ _) hm
    · exact ih piece (hrest ▸ List.mem_cons_of_mem _ hp)

theorem splitLines_head_head :
    ∀ (l : List Char) (piece : List Char) (ps : List (List Char)),
      splitLines l = piece :: ps → piece = [] ∨ piece.head? = l.head? := by
  intro l
  induction l using splitLines.induct with
  | case1 =>
    intro piece ps h
    rw [show splitLines [] = [[]] from rfl] at h
    injection h with h1 _
    exact Or.inl h1.symm
  | case2 rest ih =>
    intro piece ps h
    rw [show splitLines ('\r' :: '\n' :: rest) = [] :: splitLines rest from rfl] at h
    injection h with h1 _
    exact Or.inl h1.symm
  | case3 rest ih =>
    intro piece ps h
    rw [show splitLines ('\n' :: rest) = [] :: splitLines rest from rfl] at h
    injection h with h1 _
    exact Or.inl h1.symm
  | case4 c rest h1 h2 hrest ih =>
    intro piece ps h
    rw [splitLines_cons_eq h1 (fun hc => h2 hc), hrest] at h
    injection h with h1' _
    rw [← h1']
    exact Or.inr rfl
  | case5 c rest h1 h2 l ls hrest ih =>
    intro piece ps h
    rw [splitLines_cons_eq h1 (fun hc => h2 hc), hrest] at h
    injection h with h1' _
    rw [← h1']
    exact Or.inr rfl

theorem splitLines_noDbl :
    ∀ (l : List Char), noDbl l = true → ∀ piece ∈ splitLines l, noDbl piece = true := by
  intro l
  induction l using splitLines.induct with
  | case1 =>
    intro _ piece hp
    rw [show splitLines [] = [[]] from rfl] at hp
    simp at hp; subst hp; rfl
  | case2 rest ih =>
    intro hn piece hp
    rw [show splitLines ('\r' :: '\n' :: rest) = [] :: splitLines rest from rfl] at hp
    rcases List.mem_cons.mp hp with rfl | hp
    · rfl
    · exact ih (noDbl_cons (noDbl_cons hn)) piece hp
  | case3 rest ih =>
    intro hn piece hp
    rw [show splitLines ('\n' :: rest) = [] :: splitLines rest from rfl] at hp
    rcases List.mem_cons.mp hp with rfl | hp
    · rfl
    · exact ih (noDbl_cons hn) piece hp
  | case4 c rest h1 h2 hrest ih =>
    intro hn piece hp
    rw [splitLines_cons_eq h1 (fun hc => h2 hc), hrest] at hp
    simp only [List.mem_singleton] at hp
    subst hp; rfl
  | case5 c rest h1 h2 l ls hrest ih =>
    intro hn piece hp
    rw [splitLines_cons_eq h1 (fun hc => h2 hc), hrest] at hp
    have hl : noDbl l = true := ih (noDbl_cons hn) l (hrest ▸ List.mem_cons_self _ _)
    rcases List.mem_cons.mp hp with rfl | hp
    · rcases l with _ | ⟨x, xs⟩
      · rfl
      · rw [noDbl, Bool.and_eq_true]
        refine ⟨?_, hl⟩
        have hh := splitLines_head_head rest (x :: xs) ls hrest
        rcases hh with hl0 | hh
        · cases hl0
        · simp only [List.head?_cons] at hh
          cases rest with
          | nil => simp at hh
          | cons r rs =>
            simp only [List.head?_cons, Option.some_inj] at hh
            subst hh
            rw [noDbl, Bool.and_eq_true] at hn
            exact hn.1
    · exact ih (noDbl_cons hn) piece (hrest ▸ List.mem_cons_of_mem _ hp)

/-! ### `trimList` -/

theorem dropWhile_head_false {p : Char → Bool} :
    ∀ {l : List Char} {c : Char}, (l.dropWhile p).head? = some c → p c = false := by
  intro l
  induction l with
  | nil => intro c h; simp at h
  | cons a rest ih =>
    intro c h
    rw [List.dropWhile_cons] at h
    by_cases hp : p a
    · rw [if_pos hp] at h
      exact ih h
    · rw [if_neg hp] at h
      simp only [List.head?_cons, Option.some_inj] at h
      subst h
      exact Bool.eq_false_iff.mpr hp

theorem dropWhile_eq_self_of_head {p : Char → Bool} {l : List Char}
    (h : ∀ c, l.head? = some c → p c = false) : l.dropWhile p = l := by
  cases l with
  | nil => rfl
  | cons a rest =>
    rw [List.dropWhile_cons, if_neg]
    rw [h a rfl]
    simp

theorem prefix_head? {a b : List Char} (h : a <+: b) (hne : a ≠ []) : a.head? = b.head? := by
  obtain ⟨t, rfl⟩ := h
  cases a with
  | nil => exact absurd rfl hne
  | cons x xs => rfl

theorem trimList_pref (l : List Char) : trimList l <+: l.dropWhile isWsJS := by
  unfold trimList
  exact List.reverse_suffix.mp
    (by rw [List.reverse_reverse]; exact List.dropWhile_suffix _)

theorem trimList_inf (l : List Char) : trimList l <:+: l :=
  (trimList_pref l).isInfix.trans (List.dropWhile_suffix _).isInfix

theorem trimList_head_not_ws {l : List Char} :
    ∀ c, (trimList l).head? = some c → isWsJS c = false := by
  intro c h
  have hne : trimList l ≠ [] := by
    intro he; rw [he] at h; exact Option.noConfusion h
  rw [prefix_head? (trimList_pref l) hne] at h
  exact dropWhile_head_false h

theorem trimList_last_not_ws {l : List Char} :
    ∀ c, (trimList l).getLast? = some c → isWsJS c = false := by
  intro c h
  unfold trimList at h
  rw [List.getLast?_reverse] at h
  exact dropWhile_head_false h

theorem trimList_eq_self {l : List Char}
    (h1 : ∀ c, l.head? = some c → isWsJS c = false)
    (h2 : ∀ c, l.getLast? = some c → isWsJS c = false) : trimList l = l := by
  unfold trimList
  rw [dropWhile_eq_self_of_head h1]
  rw [dropWhile_eq_self_of_head (fun c hc => h2 c (by rwa [List.head?_reverse] at hc))]
  exact List.reverse_reverse l

theorem trimList_idem (l : List Char) : trimList (trimList l) = trimList l :=
  trimList_eq_self trimList_head_not_ws trimList_last_not_ws

/-! ### Digit printing -/

theorem charOfNat_digit {k : Nat} (h : k < 10) :
    (Char.ofNat (48 + k)).toNat = 48 + k ∧ (Char.ofNat (48 + k)).isDigit = true := by
  interval_cases k <;> exact ⟨by decide, by decide⟩

theorem digitsToNat_append (l : List Char) (c : Char) :
    digitsToNat (l ++ [c]) = 10 * digitsToNat l + (c.toNat - 48) := by
  unfold digitsToNat
  rw [List.foldl_append]
  rfl

theorem natToCharsAux_spec :
    ∀ (fuel n : Nat), n < fuel →
      digitsToNat (natToCharsAux fuel n) = n ∧
      (∀ c ∈ natToCharsAux fuel n, c.isDigit = true) ∧ natToCharsAux fuel n ≠ [] := by
  intro fuel
  induction fuel with
  | zero => intro n h; omega
  | succ f ih =>
    intro n h
    rw [natToCharsAux]
    by_cases h10 : n < 10
    · rw [if_pos h10]
      obtain ⟨hval, hdig⟩ := charOfNat_digit h10
      refine ⟨?_, ?_, by simp⟩
      · show 10 * 0 + ((Char.ofNat (48 + n)).toNat - 48) = n
        rw [hval]; omega
      · intro c hc
        simp only [List.mem_singleton] at hc
        subst hc; exact hdig
    · rw [if_neg h10]
      have hdiv : n / 10 < f := by omega
      obtain ⟨ih1, ih2, ih3⟩ := ih (n / 10) hdiv
      obtain ⟨hval, hdig⟩ := charOfNat_digit (Nat.mod_lt n (by omega))
      refine ⟨?_, ?_, by simp⟩
      · rw [digitsToNat_append, ih1, hval]
        omega
      · intro c hc
        rcases List.mem_append.mp hc with hc | hc
        · exact ih2 c hc
        · simp only [List.mem_singleton] at hc
          subst hc; exact hdig

theorem digitsToNat_natToChars (n : Nat) : digitsToNat (natToChars n) = n :=
  (natToCharsAux_spec (n + 1) n (by omega)).1

theorem natToChars_digits {n : Nat} : ∀ c ∈ natToChars n, c.isDigit = true :=
  (natToCharsAux_spec (n + 1) n (by omega)).2.1

theorem natToChars_ne_nil (n : Nat) : natToChars n ≠ [] :=
  (natToCharsAux_spec (n + 1) n (by omega)).2.2

theorem isDigit_not_ws {c : Char} (h : c.isDigit = true) : isWsJS c = false := by
  unfold isWsJS
  simp only [Bool.or_eq_false_iff, decide_eq_false_iff_not]
  refine ⟨⟨⟨⟨⟨?_, ?_⟩, ?_⟩, ?_⟩, ?_⟩, ?_⟩ <;> (intro hc; subst hc; revert h; decide)

theorem isDigit_ne_star {c : Char} (h : c.isDigit = true) : c ≠ '*' := by
  intro hc; subst hc; revert h; decide

theorem isDigit_ne_newline {c : Char} (h : c.isDigit = true) : c ≠ '\n' := by
  intro hc; subst hc; revert h; decide

theorem dropWhile_eq_self_of_all {p : Char → Bool} {l : List Char}
    (h : ∀ c ∈ l, p c = false) : l.dropWhile p = l := by
  cases l with
  | nil => rfl
  | cons a rest =>
    rw [List.dropWhile_cons, if_neg]
    rw [h a (List.mem_cons_self _ _)]
    simp

theorem takeWhile_eq_self_of_all {p : Char → Bool} :
    ∀ {l : List Char}, (∀ c ∈ l, p c = true) → l.takeWhile p = l := by
  intro l
  induction l with
  | nil => intro _; rfl
  | cons a rest ih =>
    intro h
    rw [List.takeWhile_cons, if_pos (h a (List.mem_cons_self _ _))]
    rw [ih fun c hc => h c (List.mem_cons_of_mem _ hc)]

/-! ### The serialized `Week N` header -/

/-- The canonical week header line. -/
def headerLine (n : Nat) : List Char := "Week ".toList ++ natToChars n

theorem matchWeekNum_header (n : Nat) : matchWeekNum (headerLine n) = some n := by
  have h1 : matchCI "week".toList (headerLine n) = some (' ' :: natToChars n) := rfl
  unfold matchWeekNum
  rw [h1]
  show parseWsNum (' ' :: natToChars n) = some n
  rw [parseWsNum]
  rw [if_pos (show isWsJS ' ' = true from rfl)]
  rw [dropWhile_eq_self_of_all fun c hc => isDigit_not_ws (natToChars_digits c hc)]
  rw [takeWhile_eq_self_of_all natToChars_digits]
  cases hn : natToChars n with
  | nil => exact absurd hn (natToChars_ne_nil n)
  | cons d ds =>
    show some (digitsToNat (d :: ds)) = some n
    rw [← hn, digitsToNat_natToChars]

theorem header_no_star (n : Nat) : ¬ '*' ∈ headerLine n := by
  intro hm
  rcases List.mem_append.mp hm with hm | hm
  · revert hm; decide
  · exact isDigit_ne_star (natToChars_digits _ hm) rfl

theorem header_no_newline (n : Nat) : ¬ '\n' ∈ headerLine n := by
  intro hm
  rcases List.mem_append.mp hm with hm | hm
  · revert hm; decide
  · exact isDigit_ne_newline (natToChars_digits _ hm) rfl

theorem header_last_not_ws (n : Nat) :
    ∀ c, (headerLine n).getLast? = some c → isWsJS c = false := by
  intro c h
  unfold headerLine at h
  rw [List.getLast?_append_of_ne_nil _ (natToChars_ne_nil n)] at h
  exact isDigit_not_ws (natToChars_digits c (List.mem_of_mem_getLast? h))

theorem header_trim (n : Nat) : trimList (headerLine n) = headerLine n := by
  refine trimList_eq_self ?_ (header_last_not_ws n)
  intro c h
  have : (headerLine n).head? = some 'W' := rfl
  rw [this] at h
  cases Option.some_inj.mp h
  decide

/-! ### Joining and re-splitting lines -/

theorem joinLines_cons {l : List Char} {ls : List (List Char)} (h : ls ≠ []) :
    joinLines (l :: ls) = l ++ '\n' :: joinLines ls := by
  cases ls with
  | nil => exact absurd rfl h
  | cons l₂ ls₂ => rfl

theorem joinLines_noDbl :
    ∀ (L : List (List Char)), (∀ l ∈ L, noDbl l = true) → noDbl (joinLines L) = true := by
  intro L
  induction L with
  | nil => intro _; rfl
  | cons l ls ih =>
    intro h
    cases ls with
    | nil => exact h l (List.mem_cons_self _ _)
    | cons l₂ ls₂ =>
      rw [joinLines_cons (by simp)]
      exact noDbl_append_newline l (h l (List.mem_cons_self _ _))
        (ih fun x hx => h x (List.mem_cons_of_mem _ hx))

theorem splitLines_no_newline_single :
    ∀ {l : List Char}, ¬ '\n' ∈ l → splitLines l = [l] := by
  intro l
  induction l using splitLines.induct with
  | case1 => intro _; rfl
  | case2 rest ih => intro h; exact absurd (by simp) h
  | case3 rest ih => intro h; exact absurd (List.mem_cons_self _ _) h
  | case4 c rest h1 h2 hrest ih =>
    intro h
    exact absurd (ih fun hm => h (List.mem_cons_of_mem _ hm)) (by rw [hrest]; simp)
  | case5 c rest h1 h2 l ls hrest ih =>
    intro h
    rw [splitLines_cons_eq h1 (fun hc => h2 hc), hrest]
    have := ih fun hm => h (List.mem_cons_of_mem _ hm)
    rw [hrest] at this
    injection this with e1 e2
    rw [e1, e2]

theorem splitLines_append_newline :
    ∀ (l : List Char) (rest : List Char), ¬ '\n' ∈ l → l.getLast? ≠ some '\r' →
      splitLines (l ++ '\n' :: rest) = l :: splitLines rest := by
  intro l
  induction l with
  | nil => intro rest _ _; rfl
  | cons x l' ih =>
    intro rest hnl hlast
    have hx : ¬ x = '\n' := fun hc => hnl (by rw [hc]; exact List.mem_cons_self _ _)
    have h1 : ∀ r, x = '\r' → l' ++ '\n' :: rest = '\n' :: r → False := by
      intro r hxr happ
      cases l' with
      | nil =>
        rw [hxr] at hlast
        exact hlast rfl
      | cons y ys =>
        rw [List.cons_append, List.cons.injEq] at happ
        exact hnl (by rw [happ.1]; exact List.mem_cons_of_mem _ (List.mem_cons_self _ _))
    show splitLines (x :: (l' ++ '\n' :: rest)) = (x :: l') :: splitLines rest
    rw [splitLines_cons_eq h1 hx]
    have hrec : splitLines (l' ++ '\n' :: rest) = l' :: splitLines rest := by
      refine ih rest (fun hm => hnl (List.mem_cons_of_mem _ hm)) ?_
      intro hc
      cases l' with
      | nil => exact Option.noConfusion hc
      | cons y ys =>
        rw [← List.getLast?_cons_cons] at hc
        exact hlast hc
    rw [hrec]

theorem splitLines_joinLines :
    ∀ (L : List (List Char)), L ≠ [] →
      (∀ l ∈ L, ¬ '\n' ∈ l ∧ l.getLast? ≠ some '\r') →
      splitLines (joinLines L) = L := by
  intro L
  induction L with
  | nil => intro h _; exact absurd rfl h
  | cons l ls ih =>
    intro _ h
    cases ls with
    | nil => exact splitLines_no_newline_single (h l (List.mem_cons_self _ _)).1
    | cons l₂ ls₂ =>
      rw [joinLines_cons (by simp)]
      obtain ⟨hnl, hlast⟩ := h l (List.mem_cons_self _ _)
      rw [splitLines_append_newline l _ hnl hlast]
      rw [ih (by simp) fun x hx => h x (List.mem_cons_of_mem _ hx)]

/-! ### Well-formedness of parser output -/

/-- The line-level facts the scan guarantees for every stored string. -/
structure LineOK (l : List Char) : Prop where
  trimFix : trimList l = l
  noNl : ¬ '\n' ∈ l
  lastNotWs : ∀ c, l.getLast? = some c → isWsJS c = false
  stars : noDbl l = true

/-- What the parser guarantees about each stored day. -/
structure WFDay (d : WDay) : Prop where
  nameOK : LineOK d.name
  nameDay : matchDay d.name = true
  nameNotWeek : matchWeekNum d.name = none
  exOK : ∀ e ∈ d.ex, LineOK e
  exColon : ∀ e ∈ d.ex, e.contains ':' = true
  exNotWeek : ∀ e ∈ d.ex, matchWeekNum e = none
  exNotDay : ∀ e ∈ d.ex, matchDay e = false

def WFPlan (ws : List WWeek) : Prop := ∀ w ∈ ws, ∀ d ∈ w.days, WFDay d

theorem lines_lineOK (t : List Char) :
    ∀ l ∈ (splitLines (stripStars t)).map trimList, LineOK l := by
  intro l hl
  obtain ⟨piece, hp, rfl⟩ := List.mem_map.mp hl
  exact ⟨trimList_idem piece,
    fun hm => splitLines_no_newline _ piece hp ((trimList_inf piece).subset hm),
    trimList_last_not_ws,
    noDbl_infix (trimList_inf piece) (splitLines_noDbl _ (noDbl_stripStars t) piece hp)⟩

theorem pushExDays_WF {e : List Char} (he : LineOK e) (hc : e.contains ':' = true)
    (hw : matchWeekNum e = none) (hd : matchDay e = false) :
    ∀ {ds : List WDay}, (∀ d ∈ ds, WFDay d) → ∀ d ∈ pushExDays e ds, WFDay d := by
  intro ds
  induction ds with
  | nil => intro _ d hd'; simp [pushExDays] at hd'
  | cons d0 ds ih =>
    intro h d' hd'
    rw [pushExDays] at hd'
    by_cases hemp : ds.isEmpty
    · rw [if_pos hemp] at hd'
      simp only [List.mem_singleton] at hd'
      subst hd'
      have h0 := h d0 (List.mem_cons_self _ _)
      refine ⟨h0.nameOK, h0.nameDay, h0.nameNotWeek, fun x hx => ?_, fun x hx => ?_,
        fun x hx => ?_, fun x hx => ?_⟩ <;> rcases List.mem_append.mp hx with hx | hx
      · exact h0.exOK x hx
      · simp only [List.mem_singleton] at hx; subst hx; exact he
      · exact h0.exColon x hx
      · simp only [List.mem_singleton] at hx; subst hx; exact hc
      · exact h0.exNotWeek x hx
      · simp only [List.mem_singleton] at hx; subst hx; exact hw
      · exact h0.exNotDay x hx
      · simp only [List.mem_singleton] at hx; subst hx; exact hd
    · rw [if_neg hemp] at hd'
      rcases List.mem_cons.mp hd' with heq | hd'
      · rw [heq]; exact h d0 (List.mem_cons_self _ _)
      · exact ih (fun x hx => h x (List.mem_cons_of_mem _ hx)) d' hd'

theorem pushDayW_WF {name : List Char} (hn : LineOK name) (hd : matchDay name = true)
    (hw : matchWeekNum name = none) :
    ∀ {ws : List WWeek}, WFPlan ws → WFPlan (pushDayW name ws) := by
  intro ws
  induction ws with
  | nil => intro _ w hw' d hd'; simp [pushDayW] at hw'
  | cons w0 ws ih =>
    intro h w hwm d hdm
    rw [pushDayW] at hwm
    by_cases hemp : ws.isEmpty
    · rw [if_pos hemp] at hwm
      simp only [List.mem_singleton] at hwm
      subst hwm
      rcases List.mem_append.mp hdm with hdm | hdm
      · exact h w0 (List.mem_cons_self _ _) d hdm
      · simp only [List.mem_singleton] at hdm
        subst hdm
        exact ⟨hn, hd, hw, fun e he => by simp at he, fun e he => by simp at he,
          fun e he => by simp at he, fun e he => by simp at he⟩
    · rw [if_neg hemp] at hwm
      rcases List.mem_cons.mp hwm with heq | hwm
      · rw [heq] at hdm; exact h w0 (List.mem_cons_self _ _) d hdm
      · exact ih (fun x hx => h x (List.mem_cons_of_mem _ hx)) w hwm d hdm

theorem pushExW_WF {e : List Char} (he : LineOK e) (hc : e.contains ':' = true)
    (hw : matchWeekNum e = none) (hd : matchDay e = false) :
    ∀ {ws : List WWeek}, WFPlan ws → WFPlan (pushExW e ws) := by
  intro ws
  induction ws with
  | nil => intro _ w hw' d hd'; simp [pushExW] at hw'
  | cons w0 ws ih =>
    intro h w hwm d hdm
    rw [pushExW] at hwm
    by_cases h1 : hasCurDay ws = true
    · rw [if_pos h1] at hwm
      rcases List.mem_cons.mp hwm with heq | hwm
      · rw [heq] at hdm; exact h w0 (List.mem_cons_self _ _) d hdm
      · exact ih (fun x hx => h x (List.mem_cons_of_mem _ hx)) w hwm d hdm
    · rw [if_neg h1] at hwm
      by_cases h2 : w0.days.isEmpty
      · rw [if_pos h2] at hwm
        exact h w hwm d hdm
      · rw [if_neg h2] at hwm
        rcases List.mem_cons.mp hwm with heq | hwm
        · rw [heq] at hdm
          exact pushExDays_WF he hc hw hd (h w0 (List.mem_cons_self _ _)) d hdm
        · exact h w (List.mem_cons_of_mem _ hwm) d hdm

theorem stepLine_WF {ws : List WWeek} {l : List Char} (h : WFPlan ws) (hl : LineOK l) :
    WFPlan (stepLine ws l) := by
  unfold stepLine
  by_cases he : l.isEmpty = true
  · rw [if_pos he]; exact h
  · rw [if_neg he]
    cases hw : matchWeekNum l with
    | some n =>
      intro w hwm d hdm
      rcases List.mem_append.mp hwm with hwm | hwm
      · exact h w hwm d hdm
      · simp only [List.mem_singleton] at hwm
        subst hwm
        simp at hdm
    | none =>
      by_cases hd : (matchDay l && !ws.isEmpty) = true
      · rw [if_pos hd]
        rw [Bool.and_eq_true] at hd
        exact pushDayW_WF hl hd.1 hw h
      · rw [if_neg hd]
        by_cases hx : (hasCurDay ws && l.contains ':') = true
        · rw [if_pos hx]
          rw [Bool.and_eq_true] at hx
          obtain ⟨hcur, hcol⟩ := hx
          have hdf : matchDay l = false := by
            by_contra hdm
            rw [Bool.not_eq_false] at hdm
            apply hd
            rw [hdm, Bool.true_and]
            cases ws with
            | nil => simp [hasCurDay] at hcur
            | cons a as => rfl
          exact pushExW_WF hl hcol hw hdf h
        · rw [if_neg hx]; exact h

theorem foldl_WF :
    ∀ (lines : List (List Char)) (ws : List WWeek), WFPlan ws → (∀ l ∈ lines, LineOK l) →
      WFPlan (lines.foldl stepLine ws) := by
  intro lines
  induction lines with
  | nil => intro ws hs _; exact hs
  | cons l ls ih =>
    intro ws hs h
    rw [List.foldl_cons]
    exact ih _ (stepLine_WF hs (h l (List.mem_cons_self _ _)))
      fun x hx => h x (List.mem_cons_of_mem _ hx)

theorem parse_WF (t : List Char) : WFPlan (parseWorkoutCore t) := by
  unfold parseWorkoutCore parseLines
  exact foldl_WF _ [] (fun w hw => by simp at hw) (lines_lineOK t)

/-! ### Re-parsing the canonical serialization -/

theorem matchDay_ne_nil {l : List Char} (h : matchDay l = true) : l.isEmpty = false := by
  cases l with
  | nil => exact absurd h (by decide)
  | cons c cs => rfl

theorem contains_ne_nil {l : List Char} (h : l.contains ':' = true) : l.isEmpty = false := by
  cases l with
  | nil => exact absurd h (by decide)
  | cons c cs => rfl

theorem stepLine_week (W : List WWeek) (n : Nat) :
    stepLine W (headerLine n) = W ++ [⟨n, []⟩] := by
  unfold stepLine
  rw [if_neg (show ¬((headerLine n).isEmpty = true) from fun hc =>
    by rw [show (headerLine n).isEmpty = false from rfl] at hc; cases hc)]
  rw [matchWeekNum_header]

theorem pushDayW_last (name : List Char) :
    ∀ (W : List WWeek) (num : Nat) (ds : List WDay),
      pushDayW name (W ++ [⟨num, ds⟩]) = W ++ [⟨num, ds ++ [⟨name, []⟩]⟩] := by
  intro W
  induction W with
  | nil => intro num ds; simp [pushDayW]
  | cons w W ih =>
    intro num ds
    show pushDayW name (w :: (W ++ [⟨num, ds⟩])) = w :: (W ++ [⟨num, ds ++ [⟨name, []⟩]⟩])
    rw [pushDayW, if_neg (by simp), ih]

theorem pushExDays_last (e : List Char) :
    ∀ (ds : List WDay) (name : List Char) (exs : List (List Char)),
      pushExDays e (ds ++ [⟨name, exs⟩]) = ds ++ [⟨name, exs ++ [e]⟩] := by
  intro ds
  induction ds with
  | nil => intro name exs; simp [pushExDays]
  | cons d ds ih =>
    intro name exs
    show pushExDays e (d :: (ds ++ [⟨name, exs⟩])) = d :: (ds ++ [⟨name, exs ++ [e]⟩])
    rw [pushExDays, if_neg (by simp), ih]

theorem pushExW_last (e : List Char) :
    ∀ (W : List WWeek) (num : Nat) (ds : List WDay), ds.isEmpty = false →
      pushExW e (W ++ [⟨num, ds⟩]) = W ++ [⟨num, pushExDays e ds⟩] := by
  intro W
  induction W with
  | nil =>
    intro num ds hds
    show pushExW e (⟨num, ds⟩ :: []) = [⟨num, pushExDays e ds⟩]
    rw [pushExW, if_neg (by simp [hasCurDay]), if_neg (by rw [show (⟨num, ds⟩ : WWeek).days.isEmpty = false from hds]; simp)]
  | cons w W ih =>
    intro num ds hds
    show pushExW e (w :: (W ++ [⟨num, ds⟩])) = w :: (W ++ [⟨num, pushExDays e ds⟩])
    rw [pushExW, if_pos (show hasCurDay (W ++ [⟨num, ds⟩]) = true by
      simp [hasCurDay, hds]), ih num ds hds]

theorem stepLine_dayname {name : List Char} (W : List WWeek) (num : Nat) (ds : List WDay)
    (h1 : matchWeekNum name = none) (h2 : matchDay name = true) :
    stepLine (W ++ [⟨num, ds⟩]) name = W ++ [⟨num, ds ++ [⟨name, []⟩]⟩] := by
  unfold stepLine
  rw [if_neg (fun hc => by rw [matchDay_ne_nil h2] at hc; cases hc)]
  simp only [h1]
  rw [if_pos (by simp [h2]), pushDayW_last]

theorem stepLine_exline {e : List Char} (W : List WWeek) (num : Nat) (ds : List WDay)
    (hds : ds.isEmpty = false)
    (h1 : matchWeekNum e = none) (h2 : matchDay e = false) (h3 : e.contains ':' = true) :
    stepLine (W ++ [⟨num, ds⟩]) e = W ++ [⟨num, pushExDays e ds⟩] := by
  unfold stepLine
  rw [if_neg (fun hc => by rw [contains_ne_nil h3] at hc; cases hc)]
  simp only [h1]
  rw [if_neg (by simp [h2]), if_pos (by rw [h3, Bool.and_true]; simp [hasCurDay, hds]),
    pushExW_last e W num ds hds]

theorem foldl_exlines :
    ∀ (exs : List (List Char)) (W : List WWeek) (num : Nat) (ds : List WDay)
      (name : List Char) (exs0 : List (List Char)),
      (∀ e ∈ exs, matchWeekNum e = none ∧ matchDay e = false ∧ e.contains ':' = true) →
      List.foldl stepLine (W ++ [⟨num, ds ++ [⟨name, exs0⟩]⟩]) exs =
        W ++ [⟨num, ds ++ [⟨name, exs0 ++ exs⟩]⟩] := by
  intro exs
  induction exs with
  | nil => intro W num ds name exs0 _; simp
  | cons e exs' ih =>
    intro W num ds name exs0 h
    rw [List.foldl_cons]
    obtain ⟨he1, he2, he3⟩ := h e (List.mem_cons_self _ _)
    rw [stepLine_exline W num (ds ++ [(⟨name, exs0⟩ : WDay)])
      (by simp) he1 he2 he3]
    rw [pushExDays_last]
    rw [ih W num ds name (exs0 ++ [e]) fun x hx => h x (List.mem_cons_of_mem _ hx)]
    simp

theorem foldl_days :
    ∀ (ds : List WDay) (W : List WWeek) (num : Nat) (done : List WDay),
      (∀ d ∈ ds, WFDay d) →
      List.foldl stepLine (W ++ [⟨num, done⟩]) (ds.flatMap dayLines) =
        W ++ [⟨num, done ++ ds⟩] := by
  intro ds
  induction ds with
  | nil => intro W num done _; simp
  | cons d ds' ih =>
    intro W num done h
    have hd := h d (List.mem_cons_self _ _)
    have hstate : List.foldl stepLine (W ++ [⟨num, done⟩]) (dayLines d) =
        W ++ [⟨num, done ++ [d]⟩] := by
      show List.foldl stepLine (W ++ [⟨num, done⟩]) (d.name :: d.ex) = _
      rw [List.foldl_cons, stepLine_dayname W num done hd.nameNotWeek hd.nameDay]
      rw [foldl_exlines d.ex W num done d.name []
        fun e he => ⟨hd.exNotWeek e he, hd.exNotDay e he, hd.exColon e he⟩]
      simp only [List.nil_append]
    rw [List.flatMap_cons, List.foldl_append, hstate]
    rw [ih W num (done ++ [d]) fun x hx => h x (List.mem_cons_of_mem _ hx)]
    simp

theorem foldl_weeks :
    ∀ (ws W : List WWeek), WFPlan ws →
      List.foldl stepLine W (ws.flatMap weekLines) = W ++ ws := by
  intro ws
  induction ws with
  | nil => intro W _; simp
  | cons w ws' ih =>
    intro W h
    rw [List.flatMap_cons, List.foldl_append]
    rw [show weekLines w = headerLine w.number :: w.days.flatMap dayLines from rfl]
    rw [List.foldl_cons, stepLine_week W w.number]
    rw [foldl_days w.days W w.number [] (h w (List.mem_cons_self _ _))]
    rw [ih _ fun w' hw' d hd => h w' (List.mem_cons_of_mem _ hw') d hd]
    show (W ++ [w]) ++ ws' = W ++ w :: ws'
    simp

theorem map_trim_self : ∀ {L : List (List Char)}, (∀ l ∈ L, trimList l = l) →
    L.map trimList = L := by
  intro L
  induction L with
  | nil => intro _; rfl
  | cons l ls ih =>
    intro h
    rw [List.map_cons, h l (List.mem_cons_self _ _),
      ih fun x hx => h x (List.mem_cons_of_mem _ hx)]

theorem serialized_lines_LineOK {ws : List WWeek} (h : WFPlan ws) :
    ∀ l ∈ ws.flatMap weekLines, LineOK l := by
  intro l hl
  obtain ⟨w, hw, hlw⟩ := List.mem_flatMap.mp hl
  rw [show weekLines w = headerLine w.number :: w.days.flatMap dayLines from rfl] at hlw
  rcases List.mem_cons.mp hlw with rfl | hlw
  · exact ⟨header_trim _, header_no_newline _, header_last_not_ws _,
      noDbl_of_no_star (header_no_star _)⟩
  · obtain ⟨d, hd, hld⟩ := List.mem_flatMap.mp hlw
    have hdWF := h w hw d hd
    rcases List.mem_cons.mp hld with rfl | hld
    · exact hdWF.nameOK
    · exact hdWF.exOK l hld

theorem parseLines_serialized {ws : List WWeek} (h : WFPlan ws) :
    parseLines (ws.flatMap weekLines) = ws := by
  unfold parseLines
  rw [foldl_weeks ws [] h]
  rfl

/-- **C6.**  Round-trip stability of the parser: re-parsing the canonical text
regenerated from a parsed plan (one `Week N` line per week, then each day's
name line and exercise lines) yields exactly the structure of the first parse —
same week numbers in the same order, same day name strings, same exercise
strings. -/
theorem parser_roundtrip (t : String) :
    parseWorkoutPlanText (serializePlan (parseWorkoutPlanText t)) = parseWorkoutPlanText t := by
  have hWF : WFPlan (parseWorkoutPlanText t) := parse_WF t.toList
  generalize hg : parseWorkoutPlanText t = ws at hWF ⊢
  cases ws with
  | nil => rfl
  | cons w ws' =>
    show parseWorkoutCore (joinLines ((w :: ws').flatMap weekLines)) = w :: ws'
    have hlines := serialized_lines_LineOK hWF
    unfold parseWorkoutCore
    rw [stripStars_of_noDbl (joinLines_noDbl _ fun l hl => (hlines l hl).stars)]
    rw [splitLines_joinLines _ ?_ ?_]
    · rw [map_trim_self fun l hl => (hlines l hl).trimFix]
      exact parseLines_serialized hWF
    · rw [List.flatMap_cons]
      rw [show weekLines w = headerLine w.number :: w.days.flatMap dayLines from rfl]
      simp
    · intro l hl
      refine ⟨(hlines l hl).noNl, fun hc => ?_⟩
      have := (hlines l hl).lastNotWs '\r' hc
      exact absurd this (by decide)

/-- **C7.**  `parseWorkoutPlanText` is total by construction (it is a Lean
function, defined for every string and for a `null`/`undefined` argument via
`planText || ''`), and whenever none of the scanned lines (after `**`
stripping, splitting and trimming) matches the case-insensitive week-header
pattern `^Week\s+(\d+)`, it returns the empty sequence. -/
theorem parser_empty_without_week (o : Option String)
    (h : ∀ l ∈ (splitLines (stripStars (o.getD "").toList)).map trimList,
      matchWeekNum l = none) :
    parseWorkoutPlanTextJS o = [] := by
  show ((splitLines (stripStars (o.getD "").toList)).map trimList).foldl
    stepLine [] = []
  have key : ∀ (lines : List (List Char)), (∀ l ∈ lines, matchWeekNum l = none) →
      lines.foldl stepLine [] = [] := by
    intro lines
    induction lines with
    | nil => intro _; rfl
    | cons l ls ih =>
      intro hn
      rw [List.foldl_cons]
      have hstep : stepLine [] l = [] := by
        unfold stepLine
        by_cases he : l.isEmpty = true
        · rw [if_pos he]
        · rw [if_neg he]
          simp only [hn l (List.mem_cons_self _ _)]
          rw [if_neg (by simp), if_neg (by simp [hasCurDay])]
      rw [hstep]
      exact ih fun x hx => hn x (List.mem_cons_of_mem _ hx)
  rw [key _ h]

/-- Witness for `parser_empty_without_week`: a text with no week header at all
parses to the empty sequence. -/
theorem parser_empty_without_week_witness :
    parseWorkoutPlanTextJS (some "warmup first\nBench: 3x8\nDay 1 - Push") = [] :=
  parser_empty_without_week (some "warmup first\nBench: 3x8\nDay 1 - Push") (by decide)

/-! ## §6 JSON rescue path (server.js lines 312–319, 525–533)

`JSON.parse` is a platform built-in, modelled as an abstract
`parse : String → Option J` (`none` = the parse threw). -/

/-- The backtick character (code 96). -/
def btick : Char := Char.ofNat 96

/-- The `\x60\x60\x60json` fence marker. -/
def fenceJson : List Char := btick :: btick :: btick :: 'j' :: 's' :: 'o' :: 'n' :: []

/-- The bare three-backtick fence marker. -/
def fenceBare : List Char := btick :: btick :: btick :: []

/-- `s.replace(/三backtick json|三backtick/g, '')` written with an explicit
fuel (one unit per consumed character) so it reduces in the kernel; the
alternation prefers the longer `json` variant, matching the regex. -/
def stripFencesAux : Nat → List Char → List Char
  | 0, l => l
  | _, [] => []
  | fuel + 1, c :: rest =>
    if isPrefL fenceJson (c :: rest) then stripFencesAux fuel (rest.drop 6)
    else if isPrefL fenceBare (c :: rest) then stripFencesAux fuel (rest.drop 2)
    else c :: stripFencesAux fuel rest

def stripFences (l : List Char) : List Char := stripFencesAux l.length l

/-- `cleaned.lastIndexOf(c)`. -/
def lastIdxOf (c : Char) (l : List Char) : Option Nat :=
  match l.reverse.findIdx? (fun x => x = c) with
  | some i => some (l.length - 1 - i)
  | none => none

/-- The substring the rescue parse attempts: strip code fences, trim, and
slice from the first `{` to the last `}` (`cleaned.slice(first, last + 1)`,
empty when the last `}` precedes the first `{`); `none` when either brace is
absent (`indexOf` returned `-1`). -/
def rescueSlice (s : String) : Option (List Char) :=
  let cleaned := trimList (stripFences s.toList)
  match cleaned.findIdx? (fun c => c = '{'), lastIdxOf '}' cleaned with
  | some f, some lst => some ((cleaned.drop f).take (lst + 1 - f))
  | _, _ => none

/-- `function rescueJson(s)`: parse the sliced substring, `null` on any
failure (the `try`/`catch` swallows the parse exception). -/
def rescueJson {J : Type} (parse : String → Option J) (s : String) : Option J :=
  match rescueSlice s with
  | some sub => parse (String.mk sub)
  | none => none

/-- The 502 response of the nutrition route (the `targets` echoed alongside
are independent of the parse failure and omitted here). -/
structure ErrResp where
  status : Nat
  error : String
  raw : String
deriving DecidableEq

/-- The parse phase of `/api/nutrition`: strict `JSON.parse`, then the single
`rescueJson` attempt, then the 502 invalid-JSON response carrying the raw
text.  No other parse attempt or model retry exists on this path. -/
def nutritionParsePhase {J : Type} (parse : String → Option J) (raw : String) :
    Except ErrResp J :=
  match parse raw with
  | some j => .ok j
  | none =>
    match rescueJson parse raw with
    | some j => .ok j
    | none => .error ⟨502, "Model returned invalid JSON", raw⟩

/-- **C8.**  When the raw completion is not directly parseable and the one
rescue parse (fence-stripped, first-`{`-to-last-`}` slice) also fails,
`rescueJson` returns `null` and the nutrition flow surfaces the
invalid-upstream-output error with the raw text attached; the definition of
`nutritionParsePhase` makes exactly one rescue attempt and nothing further. -/
theorem rescue_failure_surfaces (J : Type) (parse : String → Option J) (raw : String)
    (h1 : parse raw = none)
    (h2 : ∀ sub, rescueSlice raw = some sub → parse (String.mk sub) = none) :
    rescueJson parse raw = none ∧
      nutritionParsePhase parse raw =
        .error ⟨502, "Model returned invalid JSON", raw⟩ := by
  have hr : rescueJson parse raw = none := by
    unfold rescueJson
    cases hs : rescueSlice raw with
    | none => rfl
    | some sub => simp only [h2 sub hs]
  refine ⟨hr, ?_⟩
  unfold nutritionParsePhase
  simp only [h1, hr]

/-- Witness for `rescue_failure_surfaces` with a parser that rejects
everything and a non-JSON raw string. -/
theorem rescue_failure_surfaces_witness :
    rescueJson (fun _ : String => (none : Option Unit)) "not json at all" = none ∧
      nutritionParsePhase (fun _ : String => (none : Option Unit)) "not json at all" =
        .error ⟨502, "Model returned invalid JSON", "not json at all"⟩ :=
  rescue_failure_surfaces Unit (fun _ => none) "not json at all" rfl (fun _ _ => rfl)

/-! ## §7 Heap model: `expandProgrammatically` never mutates its argument

To state the frame property (C9) the function is embedded over an explicit
object heap: values are nodes, arrays/objects hold child *addresses*, and the
JavaScript mutations (`d.meals = ...`, `.push`, `.shift`, `delete`) are
in-place node updates.  Allocation appends to the heap, so an address below
the initial heap length belongs to the caller's object graph.  `JSON.parse
(JSON.stringify(x))` is a deep copy allocating only fresh nodes; a fuel
parameter bounds its recursion (exhaustion models `JSON.stringify` faulting
on cyclic values — any acyclic input succeeds for large enough fuel).
`none` models a thrown `TypeError` (e.g. property assignment on a primitive,
or cloning `undefined` when the day list is empty mid-loop). -/

inductive JNode where
  | jnull
  | jbool (b : Bool)
  | jnum (q : ℚ)
  | jstr (s : String)
  | jarr (elems : List Nat)
  | jobj (fields : List (String × Nat))
deriving DecidableEq

abbrev Heap := List JNode

/-- Child addresses of a node. -/
def kids : JNode → List Nat
  | .jarr es => es
  | .jobj fs => fs.map Prod.snd
  | _ => []

/-- Deep JSON copy of each address in the work list, allocating fresh nodes;
structural in the fuel so it reduces in the kernel. -/
def cloneList : Nat → Heap → List Nat → Option (Heap × List Nat)
  | 0, _, _ => none
  | _ + 1, h, [] => some (h, [])
  | fuel + 1, h, a :: as =>
    match h[a]? with
    | none => none
    | some (.jarr es) =>
      match cloneList fuel h es with
      | none => none
      | some (h1, es') =>
        match cloneList fuel (h1 ++ [.jarr es']) as with
        | none => none
        | some (h2, as') => some (h2, h1.length :: as')
    | some (.jobj fs) =>
      match cloneList fuel h (fs.map Prod.snd) with
      | none => none
      | some (h1, vs') =>
        match cloneList fuel (h1 ++ [.jobj ((fs.map Prod.fst).zip vs')]) as with
        | none => none
        | some (h2, as') => some (h2, h1.length :: as')
    | some n =>
      match cloneList fuel (h ++ [n]) as with
      | none => none
      | some (h2, as') => some (h2, h.length :: as')

/-- `JSON.parse(JSON.stringify(·))` of one address. -/
def cloneAt (fuel : Nat) (h : Heap) (a : Nat) : Option (Heap × Nat) :=
  match cloneList fuel h [a] with
  | some (h', [a']) => some (h', a')
  | _ => none

/-- Property read `a.k` (returns the stored address; `none` when `a` is not an
object or lacks the field). -/
def getFieldH (h : Heap) (a : Nat) (k : String) : Option Nat :=
  match h[a]? with
  | some (.jobj fs) => (fs.find? fun f => f.1 = k).map Prod.snd
  | _ => none

def setFieldN (fs : List (String × Nat)) (k : String) (v : Nat) :
    List (String × Nat) :=
  if fs.any (fun f => f.1 = k) then
    fs.map fun f => if f.1 = k then (k, v) else f
  else fs ++ [(k, v)]

/-- Property write `a.k = v`; `none` when `a` is not an object (a `TypeError`
in the strict-mode source module). -/
def setFieldH (h : Heap) (a : Nat) (k : String) (v : Nat) : Option Heap :=
  match h[a]? with
  | some (.jobj fs) => some (h.set a (.jobj (setFieldN fs k v)))
  | _ => none

/-- `delete a.k`. -/
def delFieldH (h : Heap) (a : Nat) (k : String) : Option Heap :=
  match h[a]? with
  | some (.jobj fs) => some (h.set a (.jobj (fs.filter fun f => ¬ f.1 = k)))
  | _ => none

/-- JavaScript truthiness of a value. -/
def truthy : JNode → Bool
  | .jnull => false
  | .jbool b => b
  | .jnum q => q ≠ 0
  | .jstr s => s ≠ ""
  | .jarr _ => true
  | .jobj _ => true

/-- One optional-chain read `out?.summary?.<k>`, `none` when the path is
absent or the value is falsy (so `||` falls through). -/
def pickKcalField (h : Heap) (out : Nat) (k : String) : Option Nat :=
  match getFieldH h out "summary" with
  | some sa =>
    match getFieldH h sa k with
    | some va =>
      match h[va]? with
      | some n => if truthy n then some va else none
      | none => none
    | none => none
  | none => none

/-- `out?.summary?.calories || out?.summary?.kcal || 0` as an address
(allocating the literal `0` when both reads are falsy or absent). -/
def day1KcalH (h : Heap) (out : Nat) : Heap × Nat :=
  match pickKcalField h out "calories" with
  | some va => (h, va)
  | none =>
    match pickKcalField h out "kcal" with
    | some va => (h, va)
    | none => (h ++ [.jnum 0], h.length)

/-- The placeholder meal literal
`{ name:'Meal', recipe:'Protein + carb + veg', macros:{kcal:0,...}, ingredients:[] }`. -/
def allocPlaceholderH (h : Heap) : Heap × Nat :=
  let nameA := h.length
  let h1 := h ++ [.jstr "Meal"]
  let recipeA := h1.length
  let h2 := h1 ++ [.jstr "Protein + carb + veg"]
  let zeroA := h2.length
  let h3 := h2 ++ [.jnum 0]
  let macrosA := h3.length
  let h4 := h3 ++ [.jobj [("kcal", zeroA), ("protein_g", zeroA), ("carbs_g", zeroA),
    ("fat_g", zeroA)]]
  let ingA := h4.length
  let h5 := h4 ++ [.jarr []]
  (h5 ++ [.jobj [("name", nameA), ("recipe", recipeA), ("macros", macrosA),
    ("ingredients", ingA)]], h5.length)

/-- The day-1 literal `{ day: 1, total_kcal: ..., meals: [] }` pushed when the
day list is empty. -/
def allocDay1H (h : Heap) (out : Nat) : Heap × Nat :=
  let (h1, tk) := day1KcalH h out
  let oneA := h1.length
  let h2 := h1 ++ [.jnum 1]
  let mealsA := h2.length
  let h3 := h2 ++ [.jarr []]
  (h3 ++ [.jobj [("day", oneA), ("total_kcal", tk), ("meals", mealsA)]], h3.length)

/-- `d.meals = Array.isArray(d.meals) ? d.meals : []` (an actual write on the
day object either way); returns the meals-array address. -/
def ensureMealsArrH (h : Heap) (d : Nat) : Option (Heap × Nat) :=
  match getFieldH h d "meals" with
  | some ma =>
    match h[ma]? with
    | some (.jarr _) => (setFieldH h d "meals" ma).map fun h' => (h', ma)
    | _ => (setFieldH (h ++ [.jarr []]) d "meals" h.length).map fun h' => (h', h.length)
  | none => (setFieldH (h ++ [.jarr []]) d "meals" h.length).map fun h' => (h', h.length)

/-- `const src = d.meals[d.meals.length - 1] || { ...placeholder }`: the last
meal when it is a defined truthy value, else a freshly allocated placeholder. -/
def mealSrcH (h : Heap) (es : List Nat) : Heap × Nat :=
  match es.getLast? with
  | some l =>
    match h[l]? with
    | some n => if truthy n then (h, l) else allocPlaceholderH h
    | none => allocPlaceholderH h
  | none => allocPlaceholderH h

/-- The meal-padding loop (`while (d.meals.length < mealsPerDay) push(deep
copy of src)`); `count` bounds the iterations (`mealsPerDay + 1` always
suffices). -/
def padMealsH (fuel m : Nat) : Nat → Heap → Nat → Option Heap
  | 0, h, _ => some h
  | count + 1, h, ma =>
    match h[ma]? with
    | some (.jarr es) =>
      if es.length < m then
        match mealSrcH h es with
        | (h1, src) =>
          match cloneAt fuel h1 src with
          | none => none
          | some (h2, c) =>
            match h2[ma]? with
            | some (.jarr es1) => padMealsH fuel m count (h2.set ma (.jarr (es1 ++ [c]))) ma
            | _ => none
      else some h
    | _ => none

/-- `days.forEach(d => ...)` over the day addresses. -/
def padAllDaysH (fuel m : Nat) : List Nat → Heap → Option Heap
  | [], h => some h
  | d :: ds, h =>
    match ensureMealsArrH h d with
    | none => none
    | some (h1, ma) =>
      match padMealsH fuel m (m + 1) h1 ma with
      | none => none
      | some h2 => padAllDaysH fuel m ds h2

/-- `const base = days[days.length - 1] || days[0]`: the last day when it is
a defined truthy value, else `days[0]` (`none` = `undefined`, whose deep copy
then faults). -/
def baseDayH (h : Heap) (ds : List Nat) : Option Nat :=
  match ds.getLast? with
  | some l =>
    match h[l]? with
    | some n => if truthy n then some l else ds[0]?
    | none => ds[0]?
  | none => ds[0]?

/-- `if (clone.meals && clone.meals.length > 1) clone.meals.push(clone.meals.
shift())`.  When `meals` is missing, falsy, or an array of length ≤ 1 the
guard is false; a truthy non-array either fails the `> 1` test or faults on
`.push` inside the copy — in every case the heap below the copy region is
untouched, so the model leaves the heap unchanged there. -/
def rotateMealsH (h : Heap) (c : Nat) : Heap :=
  match getFieldH h c "meals" with
  | some ma =>
    match h[ma]? with
    | some (.jarr (x :: y :: rest)) => h.set ma (.jarr (y :: rest ++ [x]))
    | _ => h
  | none => h

/-- The day-padding loop `while (days.length < 7)`: deep-copy the base day,
renumber it, rotate its meal list when it has more than one meal, push it. -/
def padDaysLoopH (fuel : Nat) : Nat → Heap → Nat → Option Heap
  | 0, h, _ => some h
  | count + 1, h, da =>
    match h[da]? with
    | some (.jarr ds) =>
      if ds.length < 7 then
        match baseDayH h ds with
        | none => none
        | some base =>
          match cloneAt fuel h base with
          | none => none
          | some (h1, c) =>
            match setFieldH (h1 ++ [.jnum ((ds.length : ℚ) + 1)]) c "day" h1.length with
            | none => none
            | some h2 =>
              match (rotateMealsH h2 c)[da]? with
              | some (.jarr ds3) =>
                padDaysLoopH fuel count ((rotateMealsH h2 c).set da (.jarr (ds3 ++ [c]))) da
              | _ => none
      else some h
    | _ => none

/-- `Array.isArray(out.day_plans) ? out.day_plans : (Array.isArray(out.days)
? out.days : [])` — the second alternative. -/
def resolveDays2H (h : Heap) (out : Nat) : Heap × Nat :=
  match getFieldH h out "days" with
  | some da =>
    match h[da]? with
    | some (.jarr _) => (h, da)
    | _ => (h ++ [.jarr []], h.length)
  | none => (h ++ [.jarr []], h.length)

def resolveDaysH (h : Heap) (out : Nat) : Heap × Nat :=
  match getFieldH h out "day_plans" with
  | some dpa =>
    match h[dpa]? with
    | some (.jarr _) => (h, dpa)
    | _ => resolveDays2H h out
  | none => resolveDays2H h out

/-- `const out = JSON.parse(JSON.stringify(plan || {}))`: deep copy when the
plan value is defined and truthy, else a fresh empty object. -/
def cloneOutH (fuel : Nat) (h : Heap) (plan : Nat) : Option (Heap × Nat) :=
  match h[plan]? with
  | some n => if truthy n then cloneAt fuel h plan else some (h ++ [.jobj []], h.length)
  | none => some (h ++ [.jobj []], h.length)

/-- `if (days.length === 0) days.push({ day: 1, total_kcal: ..., meals: [] })`. -/
def seedDaysH (h2 : Heap) (out da : Nat) (ds0 : List Nat) : Heap :=
  if ds0.isEmpty then
    match allocDay1H h2 out with
    | (ha, obj) => ha.set da (.jarr (ds0 ++ [obj]))
  else h2

/-- The statements after the day array is resolved and seeded: pad meals, pad
days, reattach `day_plans`, delete `days`, return the copy's root. -/
def expandTailH (fuel m out da : Nat) (h3 : Heap) : Option (Heap × Nat) :=
  match h3[da]? with
  | some (.jarr ds1) =>
    match padAllDaysH fuel m ds1 h3 with
    | none => none
    | some h4 =>
      match padDaysLoopH fuel 7 h4 da with
      | none => none
      | some h5 =>
        match setFieldH h5 out "day_plans" da with
        | none => none
        | some h6 =>
          match delFieldH h6 out "days" with
          | none => none
          | some h7 => some (h7, out)
  | _ => none

/-- `function expandProgrammatically(plan, mealsPerDay)` over the heap: deep
copy, resolve/create the day array (the source's `if (!Array.isArray(days))
days = []` re-check is unreachable after the ternary), seed a day when its
list is empty, then the padding/reattachment tail. -/
def expandProgrammaticallyHeap (fuel : Nat) (h : Heap) (plan : Nat) (m : Nat) :
    Option (Heap × Nat) :=
  match cloneOutH fuel h plan with
  | none => none
  | some (h1, out) =>
    match resolveDaysH h1 out with
    | (h2, da) =>
      match h2[da]? with
      | some (.jarr ds0) => expandTailH fuel m out da (seedDaysH h2 out da ds0)
      | _ => none

/-- A concrete caller heap: a plan `{day_plans: [{day: 1, meals: [{name:
"Meal A"}]}], summary: {calories: 2000}}` rooted at address 8. -/
def testHeap : Heap :=
  [.jnum 2000, .jobj [("calories", 0)], .jstr "Meal A", .jobj [("name", 2)],
   .jarr [3], .jnum 1, .jobj [("day", 5), ("meals", 4)], .jarr [6],
   .jobj [("day_plans", 7), ("summary", 1)]]

/-- Region `[n0, ∞)` of the heap never points below `n0`: every node stored
at an address `≥ n0` has all of its child addresses `≥ n0`. -/
def ClosedAbove (n0 : Nat) (h : Heap) : Prop :=
  ∀ j n, n0 ≤ j → h[j]? = some n → ∀ c ∈ kids n, n0 ≤ c

/-- Invariant threaded through the heap-level expansion: the heap only grew,
the region below `n0` (the caller's object graph) is verbatim intact relative
to the initial heap `h0`, and the region at or above `n0` (the working copy)
never points below `n0` — so every later in-place update lands above `n0`. -/
structure HInv (n0 : Nat) (h0 h : Heap) : Prop where
  len : n0 ≤ h.length
  pres : ∀ i, i < n0 → h[i]? = h0[i]?
  closed : ClosedAbove n0 h

theorem hInv_init (h0 : Heap) : HInv h0.length h0 h0 := by
  refine ⟨le_refl _, fun i _ => rfl, fun j n hj hsome c _ => ?_⟩
  rw [List.getElem?_eq_none_iff.mpr hj] at hsome
  exact absurd hsome (by simp)

theorem closedAbove_append {n0 : Nat} {h : Heap} {x : JNode}
    (hcl : ClosedAbove n0 h) (hk : ∀ c ∈ kids x, n0 ≤ c) :
    ClosedAbove n0 (h ++ [x]) := by
  intro j n hj hsome c hc
  by_cases hjl : j < h.length
  · rw [List.getElem?_append_left hjl] at hsome
    exact hcl j n hj hsome c hc
  · rw [List.getElem?_append_right (le_of_not_lt hjl)] at hsome
    cases hd : j - h.length with
    | zero =>
      rw [hd] at hsome
      simp only [List.getElem?_cons_zero, Option.some_inj] at hsome
      rw [← hsome] at hc
      exact hk c hc
    | succ k =>
      rw [hd] at hsome
      simp at hsome

theorem hInv_append {n0 : Nat} {h0 h : Heap} {x : JNode} (inv : HInv n0 h0 h)
    (hk : ∀ c ∈ kids x, n0 ≤ c) : HInv n0 h0 (h ++ [x]) := by
  refine ⟨le_trans inv.len (by simp), fun i hi => ?_, closedAbove_append inv.closed hk⟩
  rw [List.getElem?_append_left (lt_of_lt_of_le hi inv.len)]
  exact inv.pres i hi

theorem hInv_set {n0 : Nat} {h0 h : Heap} {a : Nat} {x : JNode} (inv : HInv n0 h0 h)
    (ha : n0 ≤ a) (hk : ∀ c ∈ kids x, n0 ≤ c) : HInv n0 h0 (h.set a x) := by
  refine ⟨by simpa using inv.len, fun i hi => ?_, fun j n hj hsome c hc => ?_⟩
  · rw [List.getElem?_set_ne (by omega)]
    exact inv.pres i hi
  · by_cases hja : a = j
    · subst hja
      by_cases hal : a < h.length
      · rw [List.getElem?_set_self hal] at hsome
        rw [Option.some_inj] at hsome
        rw [← hsome] at hc
        exact hk c hc
      · rw [List.set_eq_of_length_le (le_of_not_lt hal)] at hsome
        exact inv.closed a n hj hsome c hc
    · rw [List.getElem?_set_ne hja] at hsome
      exact inv.closed j n hj hsome c hc

theorem getFieldH_ge {n0 : Nat} {h : Heap} {a v : Nat} {k : String}
    (hcl : ClosedAbove n0 h) (ha : n0 ≤ a) (heq : getFieldH h a k = some v) :
    n0 ≤ v := by
  rw [getFieldH] at heq
  cases hn : h[a]? with
  | none => rw [hn] at heq; simp at heq
  | some node =>
    rw [hn] at heq
    cases node with
    | jobj fs =>
      simp only [Option.map_eq_some'] at heq
      obtain ⟨f, hf, hv⟩ := heq
      refine hcl a _ ha hn v ?_
      simp only [kids, List.mem_map]
      exact ⟨f, List.mem_of_find?_eq_some hf, hv⟩
    | jnull => simp at heq
    | jbool b => simp at heq
    | jnum q => simp at heq
    | jstr s => simp at heq
    | jarr es => simp at heq

theorem arrElems_ge {n0 : Nat} {h : Heap} {a : Nat} {es : List Nat}
    (hcl : ClosedAbove n0 h) (ha : n0 ≤ a) (heq : h[a]? = some (.jarr es)) :
    ∀ e ∈ es, n0 ≤ e :=
  fun e he => hcl a _ ha heq e (by simpa [kids] using he)

theorem setFieldN_snd_sub {fs : List (String × Nat)} {k : String} {v c : Nat}
    (hc : c ∈ (setFieldN fs k v).map Prod.snd) : c = v ∨ c ∈ fs.map Prod.snd := by
  rw [setFieldN] at hc
  by_cases hany : fs.any (fun f => f.1 = k)
  · rw [if_pos hany, List.map_map, List.mem_map] at hc
    obtain ⟨f, hf, hfc⟩ := hc
    by_cases hk : f.1 = k
    · left
      rw [Function.comp_apply, if_pos hk] at hfc
      exact hfc.symm
    · right
      rw [Function.comp_apply, if_neg hk] at hfc
      rw [← hfc]
      exact List.mem_map_of_mem Prod.snd hf
  · rw [if_neg hany, List.map_append, List.mem_append] at hc
    rcases hc with hc | hc
    · exact Or.inr hc
    · simp at hc
      exact Or.inl hc

theorem setFieldH_inv {n0 : Nat} {h0 h h' : Heap} {a v : Nat} {k : String}
    (inv : HInv n0 h0 h) (ha : n0 ≤ a) (hv : n0 ≤ v)
    (heq : setFieldH h a k v = some h') : HInv n0 h0 h' := by
  rw [setFieldH] at heq
  cases hn : h[a]? with
  | none => rw [hn] at heq; simp at heq
  | some node =>
    rw [hn] at heq
    cases node with
    | jobj fs =>
      rw [Option.some_inj] at heq
      rw [← heq]
      refine hInv_set inv ha fun c hc => ?_
      rcases setFieldN_snd_sub (by simpa [kids] using hc) with hcv | hold
      · exact hcv ▸ hv
      · exact inv.closed a _ ha hn c (by simpa [kids] using hold)
    | jnull => simp at heq
    | jbool b => simp at heq
    | jnum q => simp at heq
    | jstr s => simp at heq
    | jarr es => simp at heq

theorem delFieldH_inv {n0 : Nat} {h0 h h' : Heap} {a : Nat} {k : String}
    (inv : HInv n0 h0 h) (ha : n0 ≤ a)
    (heq : delFieldH h a k = some h') : HInv n0 h0 h' := by
  rw [delFieldH] at heq
  cases hn : h[a]? with
  | none => rw [hn] at heq; simp at heq
  | some node =>
    rw [hn] at heq
    cases node with
    | jobj fs =>
      rw [Option.some_inj] at heq
      rw [← heq]
      refine hInv_set inv ha fun c hc => ?_
      simp only [kids, List.mem_map] at hc
      obtain ⟨f, hf, hfc⟩ := hc
      refine inv.closed a _ ha hn c ?_
      simp only [kids, List.mem_map]
      exact ⟨f, List.mem_of_mem_filter hf, hfc⟩
    | jnull => simp at heq
    | jbool b => simp at heq
    | jnum q => simp at heq
    | jstr s => simp at heq
    | jarr es => simp at heq

/-- The deep copy grows the heap, preserves every existing cell, returns only
fresh roots, and keeps any closed upper region closed (the copies reference
only fresh addresses). -/
theorem cloneList_inv :
    ∀ (fuel : Nat) (h : Heap) (as : List Nat) (h' : Heap) (as' : List Nat),
      cloneList fuel h as = some (h', as') →
      h.length ≤ h'.length ∧ (∀ i, i < h.length → h'[i]? = h[i]?) ∧
        (∀ a' ∈ as', h.length ≤ a') ∧
        ∀ n0, n0 ≤ h.length → ClosedAbove n0 h → ClosedAbove n0 h' := by
  intro fuel
  induction fuel with
  | zero =>
    intro h as h' as' heq
    simp [cloneList] at heq
  | succ f ih =>
    intro h as h' as' heq
    cases as with
    | nil =>
      rw [cloneList, Option.some_inj, Prod.mk.injEq] at heq
      obtain ⟨hh, ha⟩ := heq
      subst hh; subst ha
      exact ⟨le_refl _, fun i _ => rfl, by simp, fun n0 _ hcl => hcl⟩
    | cons a as =>
      rw [cloneList] at heq
      cases hn : h[a]? with
      | none => rw [hn] at heq; simp at heq
      | some node =>
        cases node with
        | jarr es =>
          simp only [hn] at heq
          split at heq
          · simp at heq
          · rename_i h1 es' h1e
            split at heq
            · simp at heq
            · rename_i h2 as2 h2e
              rw [Option.some_inj, Prod.mk.injEq] at heq
              obtain ⟨hh, ha⟩ := heq
              subst hh; subst ha
              obtain ⟨l1, p1, r1, c1⟩ := ih h es h1 es' h1e
              obtain ⟨l2, p2, r2, c2⟩ := ih (h1 ++ [JNode.jarr es']) as h2 as2 h2e
              refine ⟨?_, ?_, ?_, ?_⟩
              · simp at l2; omega
              · intro i hi
                rw [p2 i (by simp; omega), List.getElem?_append_left (by omega)]
                exact p1 i hi
              · intro a' ha'
                rcases List.mem_cons.mp ha' with rfl | hm
                · exact l1
                · have := r2 a' hm
                  simp at this
                  omega
              · intro n0 hn0 hcl
                refine c2 n0 (by simp; omega) (closedAbove_append (c1 n0 hn0 hcl) ?_)
                intro c hc
                exact le_trans hn0 (r1 c (by simpa [kids] using hc))
        | jobj fs =>
          simp only [hn] at heq
          split at heq
          · simp at heq
          · rename_i h1 vs' h1e
            split at heq
            · simp at heq
            · rename_i h2 as2 h2e
              rw [Option.some_inj, Prod.mk.injEq] at heq
              obtain ⟨hh, ha⟩ := heq
              subst hh; subst ha
              obtain ⟨l1, p1, r1, c1⟩ := ih h (fs.map Prod.snd) h1 vs' h1e
              obtain ⟨l2, p2, r2, c2⟩ :=
                ih (h1 ++ [JNode.jobj ((fs.map Prod.fst).zip vs')]) as h2 as2 h2e
              refine ⟨?_, ?_, ?_, ?_⟩
              · simp at l2; omega
              · intro i hi
                rw [p2 i (by simp; omega), List.getElem?_append_left (by omega)]
                exact p1 i hi
              · intro a' ha'
                rcases List.mem_cons.mp ha' with rfl | hm
                · exact l1
                · have := r2 a' hm
                  simp at this
                  omega
              · intro n0 hn0 hcl
                refine c2 n0 (by simp; omega) (closedAbove_append (c1 n0 hn0 hcl) ?_)
                intro c hc
                simp only [kids, List.mem_map] at hc
                obtain ⟨p, hp, hpc⟩ := hc
                exact le_trans hn0 (r1 c (hpc ▸ (List.of_mem_zip hp).2))
        | jnull =>
          simp only [hn] at heq
          split at heq
          · simp at heq
          · rename_i h2 as2 h2e
            rw [Option.some_inj, Prod.mk.injEq] at heq
            obtain ⟨hh, ha⟩ := heq
            subst hh; subst ha
            obtain ⟨l1, p1, r1, c1⟩ := ih (h ++ [JNode.jnull]) as h2 as2 h2e
            refine ⟨by simp at l1; omega, ?_, ?_, ?_⟩
            · intro i hi
              rw [p1 i (by simp; omega), List.getElem?_append_left (by omega)]
            · intro a' ha'
              rcases List.mem_cons.mp ha' with rfl | hm
              · exact le_refl _
              · have := r1 a' hm
                simp at this
                omega
            · intro n0 hn0 hcl
              refine c1 n0 (by simp; omega) (closedAbove_append hcl ?_)
              intro c hc
              simp [kids] at hc
        | jbool b =>
          simp only [hn] at heq
          split at heq
          · simp at heq
          · rename_i h2 as2 h2e
            rw [Option.some_inj, Prod.mk.injEq] at heq
            obtain ⟨hh, ha⟩ := heq
            subst hh; subst ha
            obtain ⟨l1, p1, r1, c1⟩ := ih (h ++ [JNode.jbool b]) as h2 as2 h2e
            refine ⟨by simp at l1; omega, ?_, ?_, ?_⟩
            · intro i hi
              rw [p1 i (by simp; omega), List.getElem?_append_left (by omega)]
            · intro a' ha'
              rcases List.mem_cons.mp ha' with rfl | hm
              · exact le_refl _
              · have := r1 a' hm
                simp at this
                omega
            · intro n0 hn0 hcl
              refine c1 n0 (by simp; omega) (closedAbove_append hcl ?_)
              intro c hc
              simp [kids] at hc
        | jnum q =>
          simp only [hn] at heq
          split at heq
          · simp at heq
          · rename_i h2 as2 h2e
            rw [Option.some_inj, Prod.mk.injEq] at heq
            obtain ⟨hh, ha⟩ := heq
            subst hh; subst ha
            obtain ⟨l1, p1, r1, c1⟩ := ih (h ++ [JNode.jnum q]) as h2 as2 h2e
            refine ⟨by simp at l1; omega, ?_, ?_, ?_⟩
            · intro i hi
              rw [p1 i (by simp; omega), List.getElem?_append_left (by omega)]
            · intro a' ha'
              rcases List.mem_cons.mp ha' with rfl | hm
              · exact le_refl _
              · have := r1 a' hm
                simp at this
                omega
            · intro n0 hn0 hcl
              refine c1 n0 (by simp; omega) (closedAbove_append hcl ?_)
              intro c hc
              simp [kids] at hc
        | jstr s =>
          simp only [hn] at heq
          split at heq
          · simp at heq
          · rename_i h2 as2 h2e
            rw [Option.some_inj, Prod.mk.injEq] at heq
            obtain ⟨hh, ha⟩ := heq
            subst hh; subst ha
            obtain ⟨l1, p1, r1, c1⟩ := ih (h ++ [JNode.jstr s]) as h2 as2 h2e
            refine ⟨by simp at l1; omega, ?_, ?_, ?_⟩
            · intro i hi
              rw [p1 i (by simp; omega), List.getElem?_append_left (by omega)]
            · intro a' ha'
              rcases List.mem_cons.mp ha' with rfl | hm
              · exact le_refl _
              · have := r1 a' hm
                simp at this
                omega
            · intro n0 hn0 hcl
              refine c1 n0 (by simp; omega) (closedAbove_append hcl ?_)
              intro c hc
              simp [kids] at hc

theorem cloneAt_inv {fuel : Nat} {h h' : Heap} {a c : Nat}
    (heq : cloneAt fuel h a = some (h', c)) :
    h.length ≤ h'.length ∧ (∀ i, i < h.length → h'[i]? = h[i]?) ∧ h.length ≤ c ∧
      ∀ n0, n0 ≤ h.length → ClosedAbove n0 h → ClosedAbove n0 h' := by
  rw [cloneAt] at heq
  cases hcl : cloneList fuel h [a] with
  | none => rw [hcl] at heq; simp at heq
  | some p =>
    obtain ⟨h1, as'⟩ := p
    rw [hcl] at heq
    cases as' with
    | nil => simp at heq
    | cons c0 rest =>
      cases rest with
      | nil =>
        rw [Option.some_inj, Prod.mk.injEq] at heq
        obtain ⟨hh, hc0⟩ := heq
        subst hh; subst hc0
        obtain ⟨l1, p1, r1, c1⟩ := cloneList_inv fuel h [a] _ _ hcl
        exact ⟨l1, p1, r1 _ (by simp), c1⟩
      | cons _ _ => simp at heq

/-- HInv-level packaging of `cloneAt`: note the cloned address `a` itself may
point anywhere (it is the caller's object being read), yet the result heap
still satisfies the invariant and the copy's root is fresh. -/
theorem cloneAt_hInv {n0 : Nat} {h0 h h' : Heap} {fuel a c : Nat}
    (inv : HInv n0 h0 h) (heq : cloneAt fuel h a = some (h', c)) :
    HInv n0 h0 h' ∧ n0 ≤ c := by
  obtain ⟨l1, p1, r1, c1⟩ := cloneAt_inv heq
  refine ⟨⟨le_trans inv.len l1, fun i hi => ?_, c1 n0 inv.len inv.closed⟩,
    le_trans inv.len r1⟩
  rw [p1 i (lt_of_lt_of_le hi inv.len)]
  exact inv.pres i hi

theorem allocPlaceholderH_inv {n0 : Nat} {h0 h : Heap} (inv : HInv n0 h0 h) :
    HInv n0 h0 (allocPlaceholderH h).1 ∧ n0 ≤ (allocPlaceholderH h).2 := by
  have hl := inv.len
  constructor
  · exact hInv_append (hInv_append (hInv_append (hInv_append (hInv_append
      (hInv_append inv (fun c hc => by simp [kids] at hc))
      (fun c hc => by simp [kids] at hc))
      (fun c hc => by simp [kids] at hc))
      (fun c hc => by simp [kids] at hc; omega))
      (fun c hc => by simp [kids] at hc))
      (fun c hc => by simp [kids] at hc; omega)
  · simp [allocPlaceholderH]
    omega

theorem pickKcalField_ge {n0 : Nat} {h : Heap} {out va : Nat} {k : String}
    (hcl : ClosedAbove n0 h) (hout : n0 ≤ out)
    (heq : pickKcalField h out k = some va) : n0 ≤ va := by
  rw [pickKcalField] at heq
  cases hsum : getFieldH h out "summary" with
  | none => rw [hsum] at heq; simp at heq
  | some sa =>
    simp only [hsum] at heq
    cases hk : getFieldH h sa k with
    | none => rw [hk] at heq; simp at heq
    | some va0 =>
      simp only [hk] at heq
      have hva0 : n0 ≤ va0 := getFieldH_ge hcl (getFieldH_ge hcl hout hsum) hk
      cases hn : h[va0]? with
      | none => rw [hn] at heq; simp at heq
      | some node =>
        simp only [hn] at heq
        by_cases ht : truthy node
        · rw [if_pos ht, Option.some_inj] at heq
          exact heq ▸ hva0
        · rw [if_neg ht] at heq
          simp at heq

theorem day1KcalH_inv {n0 : Nat} {h0 h : Heap} {out : Nat} (inv : HInv n0 h0 h)
    (hout : n0 ≤ out) :
    HInv n0 h0 (day1KcalH h out).1 ∧ n0 ≤ (day1KcalH h out).2 := by
  rw [day1KcalH]
  cases hc : pickKcalField h out "calories" with
  | some va =>
    simp only [hc]
    exact ⟨inv, pickKcalField_ge inv.closed hout hc⟩
  | none =>
    simp only [hc]
    cases hk : pickKcalField h out "kcal" with
    | some va =>
      simp only [hk]
      exact ⟨inv, pickKcalField_ge inv.closed hout hk⟩
    | none =>
      simp only [hk]
      exact ⟨hInv_append inv (fun c hc => by simp [kids] at hc), le_trans inv.len (by simp)⟩

theorem allocDay1H_inv {n0 : Nat} {h0 h : Heap} {out : Nat} (inv : HInv n0 h0 h)
    (hout : n0 ≤ out) :
    HInv n0 h0 (allocDay1H h out).1 ∧ n0 ≤ (allocDay1H h out).2 := by
  obtain ⟨i1, htk⟩ := day1KcalH_inv inv hout
  rw [allocDay1H]
  rcases hd : day1KcalH h out with ⟨h1, tk⟩
  rw [hd] at i1 htk
  simp only
  have hl1 : n0 ≤ h1.length := i1.len
  refine ⟨hInv_append (hInv_append (hInv_append i1
    (fun c hc => by simp [kids] at hc))
    (fun c hc => by simp [kids] at hc))
    (fun c hc => by simp [kids] at hc; omega), by simp; omega⟩

theorem ensureMealsArrH_inv {n0 : Nat} {h0 h h' : Heap} {d ma : Nat}
    (inv : HInv n0 h0 h) (hd : n0 ≤ d)
    (heq : ensureMealsArrH h d = some (h', ma)) : HInv n0 h0 h' ∧ n0 ≤ ma := by
  have hfresh : ∀ h'' ma'',
      (setFieldH (h ++ [JNode.jarr []]) d "meals" h.length).map
          (fun hh => (hh, h.length)) = some (h'', ma'') →
      HInv n0 h0 h'' ∧ n0 ≤ ma'' := by
    intro h'' ma'' hset
    rw [Option.map_eq_some'] at hset
    obtain ⟨hh, hset, hpair⟩ := hset
    rw [Prod.mk.injEq] at hpair
    obtain ⟨rfl, rfl⟩ := hpair
    have i1 : HInv n0 h0 (h ++ [JNode.jarr []]) :=
      hInv_append inv (fun c hc => by simp [kids] at hc)
    exact ⟨setFieldH_inv i1 hd (le_trans inv.len (by simp)) hset, inv.len⟩
  rw [ensureMealsArrH] at heq
  cases hf : getFieldH h d "meals" with
  | none =>
    rw [hf] at heq
    exact hfresh h' ma heq
  | some ma0 =>
    simp only [hf] at heq
    have hma0 : n0 ≤ ma0 := getFieldH_ge inv.closed hd hf
    split at heq
    · rw [Option.map_eq_some'] at heq
      obtain ⟨hh, hset, hpair⟩ := heq
      rw [Prod.mk.injEq] at hpair
      obtain ⟨rfl, rfl⟩ := hpair
      exact ⟨setFieldH_inv inv hd hma0 hset, hma0⟩
    · exact hfresh h' ma heq

theorem mealSrcH_inv {n0 : Nat} {h0 h : Heap} {es : List Nat} (inv : HInv n0 h0 h)
    (hes : ∀ e ∈ es, n0 ≤ e) :
    HInv n0 h0 (mealSrcH h es).1 ∧ n0 ≤ (mealSrcH h es).2 := by
  rw [mealSrcH]
  cases hl : es.getLast? with
  | none => simp only [hl]; exact allocPlaceholderH_inv inv
  | some l =>
    simp only [hl]
    have hln : n0 ≤ l := hes l (List.mem_of_mem_getLast? hl)
    cases hn : h[l]? with
    | none => simp only [hn]; exact allocPlaceholderH_inv inv
    | some node =>
      simp only [hn]
      by_cases ht : truthy node
      · rw [if_pos ht]
        exact ⟨inv, hln⟩
      · rw [if_neg ht]
        exact allocPlaceholderH_inv inv

theorem padMealsH_inv {n0 fuel m ma : Nat} {h0 : Heap} :
    ∀ (count : Nat) (h h' : Heap), HInv n0 h0 h → n0 ≤ ma →
      padMealsH fuel m count h ma = some h' → HInv n0 h0 h' := by
  intro count
  induction count with
  | zero =>
    intro h h' inv _ heq
    rw [padMealsH, Option.some_inj] at heq
    exact heq ▸ inv
  | succ k ih =>
    intro h h' inv hma heq
    rw [padMealsH] at heq
    split at heq
    · rename_i es hmaeq
      split at heq
      · rcases hms : mealSrcH h es with ⟨h1, src⟩
        obtain ⟨i1, hsrc⟩ := mealSrcH_inv inv (arrElems_ge inv.closed hma hmaeq)
        rw [hms] at i1 hsrc
        simp only [hms] at heq
        split at heq
        · simp at heq
        · rename_i h2 c hclone
          obtain ⟨i2, hc⟩ := cloneAt_hInv i1 hclone
          split at heq
          · rename_i es1 hes1
            refine ih _ _ (hInv_set i2 hma ?_) hma heq
            intro e he
            rcases List.mem_append.mp he with he | he
            · exact arrElems_ge i2.closed hma hes1 e he
            · simp at he
              exact he ▸ hc
          · simp at heq
      · rw [Option.some_inj] at heq
        exact heq ▸ inv
    · simp at heq

theorem padAllDaysH_inv {n0 fuel m : Nat} {h0 : Heap} :
    ∀ (ds : List Nat) (h h' : Heap), HInv n0 h0 h → (∀ d ∈ ds, n0 ≤ d) →
      padAllDaysH fuel m ds h = some h' → HInv n0 h0 h' := by
  intro ds
  induction ds with
  | nil =>
    intro h h' inv _ heq
    rw [padAllDaysH, Option.some_inj] at heq
    exact heq ▸ inv
  | cons d ds ih =>
    intro h h' inv hds heq
    rw [padAllDaysH] at heq
    split at heq
    · simp at heq
    · rename_i h1 ma hens
      obtain ⟨i1, hma⟩ := ensureMealsArrH_inv inv (hds d (by simp)) hens
      split at heq
      · simp at heq
      · rename_i h2 hpad
        exact ih h2 h' (padMealsH_inv _ _ _ i1 hma hpad)
          (fun e he => hds e (List.mem_cons_of_mem d he)) heq

theorem baseDayH_ge {n0 : Nat} {h : Heap} {es : List Nat} {b : Nat}
    (hes : ∀ e ∈ es, n0 ≤ e) (heq : baseDayH h es = some b) : n0 ≤ b := by
  have hzero : es[0]? = some b → n0 ≤ b := fun h0 =>
    hes b (List.getElem?_mem h0)
  rw [baseDayH] at heq
  cases hl : es.getLast? with
  | none =>
    rw [hl] at heq
    exact hzero heq
  | some l =>
    simp only [hl] at heq
    cases hn : h[l]? with
    | none =>
      rw [hn] at heq
      exact hzero heq
    | some node =>
      simp only [hn] at heq
      by_cases ht : truthy node
      · rw [if_pos ht, Option.some_inj] at heq
        exact heq ▸ hes l (List.mem_of_mem_getLast? hl)
      · rw [if_neg ht] at heq
        exact hzero heq

theorem rotateMealsH_inv {n0 : Nat} {h0 h : Heap} {c : Nat} (inv : HInv n0 h0 h)
    (hc : n0 ≤ c) : HInv n0 h0 (rotateMealsH h c) := by
  rw [rotateMealsH]
  cases hf : getFieldH h c "meals" with
  | none => simp only [hf]; exact inv
  | some ma =>
    simp only [hf]
    have hma : n0 ≤ ma := getFieldH_ge inv.closed hc hf
    split
    · rename_i x y rest hn
      refine hInv_set inv hma ?_
      intro e he
      refine arrElems_ge inv.closed hma hn e ?_
      simp only [kids, List.mem_cons, List.mem_append, List.mem_singleton] at he ⊢
      tauto
    · exact inv

theorem padDaysLoopH_inv {n0 fuel da : Nat} {h0 : Heap} :
    ∀ (count : Nat) (h h' : Heap), HInv n0 h0 h → n0 ≤ da →
      padDaysLoopH fuel count h da = some h' → HInv n0 h0 h' := by
  intro count
  induction count with
  | zero =>
    intro h h' inv _ heq
    rw [padDaysLoopH, Option.some_inj] at heq
    exact heq ▸ inv
  | succ k ih =>
    intro h h' inv hda heq
    rw [padDaysLoopH] at heq
    split at heq
    · rename_i ds hdseq
      split at heq
      · split at heq
        · simp at heq
        · rename_i base hbase
          split at heq
          · simp at heq
          · rename_i h1 c hclone
            obtain ⟨i1, hc⟩ := cloneAt_hInv inv hclone
            split at heq
            · simp at heq
            · rename_i h2 hset
              have i1' : HInv n0 h0 (h1 ++ [JNode.jnum ((ds.length : ℚ) + 1)]) :=
                hInv_append i1 (fun e he => by simp [kids] at he)
              have i2 := setFieldH_inv i1' hc (le_trans i1.len (by simp)) hset
              split at heq
              · rename_i ds3 hds3
                have irot := rotateMealsH_inv i2 hc
                refine ih _ _ (hInv_set irot hda ?_) hda heq
                intro e he
                rcases List.mem_append.mp he with he | he
                · exact arrElems_ge irot.closed hda hds3 e he
                · simp at he
                  exact he ▸ hc
              · simp at heq
      · rw [Option.some_inj] at heq
        exact heq ▸ inv
    · simp at heq

theorem resolveDays2H_inv {n0 : Nat} {h0 h : Heap} {out : Nat} (inv : HInv n0 h0 h)
    (hout : n0 ≤ out) :
    HInv n0 h0 (resolveDays2H h out).1 ∧ n0 ≤ (resolveDays2H h out).2 := by
  have hfresh : HInv n0 h0 (h ++ [JNode.jarr []], h.length).1 ∧
      n0 ≤ (h ++ [JNode.jarr []], h.length).2 :=
    ⟨hInv_append inv (fun c hc => by simp [kids] at hc), inv.len⟩
  rw [resolveDays2H]
  cases hf : getFieldH h out "days" with
  | none => simp only [hf]; exact hfresh
  | some da =>
    simp only [hf]
    split
    · exact ⟨inv, getFieldH_ge inv.closed hout hf⟩
    · exact hfresh

theorem resolveDaysH_inv {n0 : Nat} {h0 h : Heap} {out : Nat} (inv : HInv n0 h0 h)
    (hout : n0 ≤ out) :
    HInv n0 h0 (resolveDaysH h out).1 ∧ n0 ≤ (resolveDaysH h out).2 := by
  rw [resolveDaysH]
  cases hf : getFieldH h out "day_plans" with
  | none => simp only [hf]; exact resolveDays2H_inv inv hout
  | some dpa =>
    simp only [hf]
    split
    · exact ⟨inv, getFieldH_ge inv.closed hout hf⟩
    · exact resolveDays2H_inv inv hout

theorem cloneOutH_inv {n0 fuel plan out : Nat} {h0 h h1 : Heap}
    (inv : HInv n0 h0 h) (heq : cloneOutH fuel h plan = some (h1, out)) :
    HInv n0 h0 h1 ∧ n0 ≤ out := by
  have hfresh : some ((h ++ [JNode.jobj []] : Heap), h.length) = some (h1, out) →
      HInv n0 h0 h1 ∧ n0 ≤ out := by
    intro hp
    rw [Option.some_inj, Prod.mk.injEq] at hp
    obtain ⟨rfl, rfl⟩ := hp
    exact ⟨hInv_append inv (fun c hc => by simp [kids] at hc), inv.len⟩
  rw [cloneOutH] at heq
  cases hn : h[plan]? with
  | none =>
    rw [hn] at heq
    exact hfresh heq
  | some node =>
    simp only [hn] at heq
    by_cases ht : truthy node
    · rw [if_pos ht] at heq
      exact cloneAt_hInv inv heq
    · rw [if_neg ht] at heq
      exact hfresh heq

theorem seedDaysH_inv {n0 out da : Nat} {h0 h2 : Heap} {ds0 : List Nat}
    (i2 : HInv n0 h0 h2) (hout : n0 ≤ out) (hda : n0 ≤ da)
    (hds0 : ∀ e ∈ ds0, n0 ≤ e) : HInv n0 h0 (seedDaysH h2 out da ds0) := by
  rw [seedDaysH]
  split
  · rcases hall : allocDay1H h2 out with ⟨ha, obj⟩
    obtain ⟨ia, hobj⟩ := allocDay1H_inv i2 hout
    rw [hall] at ia hobj
    simp only [hall]
    refine hInv_set ia hda ?_
    intro e he
    rcases List.mem_append.mp he with he | he
    · exact hds0 e he
    · simp at he
      exact he ▸ hobj
  · exact i2

theorem expandTailH_inv {n0 fuel m out da r : Nat} {h0 h3 hfin : Heap}
    (i3 : HInv n0 h0 h3) (hout : n0 ≤ out) (hda : n0 ≤ da)
    (heq : expandTailH fuel m out da h3 = some (hfin, r)) : HInv n0 h0 hfin := by
  rw [expandTailH] at heq
  split at heq
  · rename_i ds1 hds1
    split at heq
    · simp at heq
    · rename_i h4 hpad
      have i4 := padAllDaysH_inv ds1 h3 h4 i3 (arrElems_ge i3.closed hda hds1) hpad
      split at heq
      · simp at heq
      · rename_i h5 hloop
        have i5 := padDaysLoopH_inv 7 h4 h5 i4 hda hloop
        split at heq
        · simp at heq
        · rename_i h6 hset
          have i6 := setFieldH_inv i5 hout hda hset
          split at heq
          · simp at heq
          · rename_i h7 hdel
            have i7 := delFieldH_inv i6 hout hdel
            rw [Option.some_inj, Prod.mk.injEq] at heq
            exact heq.1 ▸ i7
  · simp at heq

/-- C9: `expandProgrammatically` never mutates its `plan` argument.  Over the
heap embedding, whenever the call returns, every cell of the caller's heap —
the entire `plan` object graph, including its `day_plans`/`days`, meals and
summary — is byte-for-byte unchanged: the function works on a deep
`JSON.parse(JSON.stringify(...))` copy, and every write (`d.meals = ...`,
`push`, `shift`, `clone.day = ...`, `out.day_plans = ...`, `delete
out.days`) lands at an address allocated at or after the copy. -/
theorem expandProgrammatically_no_mutation (fuel : Nat) (h : Heap) (plan m : Nat) :
    ∀ res ∈ expandProgrammaticallyHeap fuel h plan m,
      h.length ≤ res.1.length ∧ ∀ i, i < h.length → res.1[i]? = h[i]? := by
  intro res hres
  obtain ⟨hfin, r⟩ := res
  rw [Option.mem_def, expandProgrammaticallyHeap] at hres
  split at hres
  · simp at hres
  · rename_i h1 out hclone
    obtain ⟨i1, hout⟩ := cloneOutH_inv (hInv_init h) hclone
    rcases hrd : resolveDaysH h1 out with ⟨h2, da⟩
    obtain ⟨i2, hda⟩ := resolveDaysH_inv i1 hout
    rw [hrd] at i2 hda
    simp only [hrd] at hres
    split at hres
    · rename_i ds0 hds0
      have i3 := seedDaysH_inv i2 hout hda (arrElems_ge i2.closed hda hds0)
      have ifin := expandTailH_inv i3 hout hda hres
      exact ⟨ifin.len, ifin.pres⟩
    · simp at hres

theorem expandProgrammatically_no_mutation_witness :
    (expandProgrammaticallyHeap 100 testHeap 8 3).isSome = true ∧
      ∀ res ∈ expandProgrammaticallyHeap 100 testHeap 8 3,
        testHeap.length ≤ res.1.length ∧
          ∀ i, i < testHeap.length → res.1[i]? = testHeap[i]? :=
  ⟨by decide, fun res hres => expandProgrammatically_no_mutation 100 testHeap 8 3 res hres⟩

end BroSplit
